import Mathlib

/-!
Verification development for the dbspy stream core
(`src/dbspy/stream/__init__.py` and `src/dbspy/stream/operators/linear.py`).

The Python classes are shallowly embedded as Lean structures; mutation is
modelled by explicit state passing (each method that mutates its receiver
returns the updated stream together with its result), Python exceptions are
modelled with `Except String`, Python `dict`s with association lists updated
with dict insertion semantics (overwrite in place, append fresh keys at the
end), and the unbounded `step_until_fixpoint` loop with a fuel-indexed
iteration `drain` (theorems always exhibit sufficient fuel).
-/

namespace DBSP

/-- The abelian-group capability interface from `dbspy.core`
(`add`, `neg`, `identity`), consumed by `Stream`. -/
structure AbelianGroupOperation (T : Type) where
  add : T → T → T
  neg : T → T
  identity : T

/-- The group laws the spec requires of any `AbelianGroupOperation`
("closure, associativity, identity, and inverse laws exactly"). -/
structure IsAbelianGroup {T : Type} (g : AbelianGroupOperation T) : Prop where
  add_assoc : ∀ a b c : T, g.add (g.add a b) c = g.add a (g.add b c)
  add_comm : ∀ a b : T, g.add a b = g.add b a
  add_identity : ∀ a : T, g.add a g.identity = a
  add_inverse : ∀ a : T, g.add a (g.neg a) = g.identity

/-- Lookup in an association list, modelling Python `dict.get` /
subscript lookup (keys are unique under `updateA` insertion). -/
def lookupA {α : Type} : List (Int × α) → Int → Option α
  | [], _ => none
  | (k, v) :: rest, t => if k = t then some v else lookupA rest t

/-- Insertion into an association list with Python `dict` semantics:
overwrite an existing key in place, append a fresh key at the end. -/
def updateA {α : Type} : List (Int × α) → Int → α → List (Int × α)
  | [], k, v => [(k, v)]
  | (k', v') :: rest, k, v =>
      if k' = k then (k, v) :: rest else (k', v') :: updateA rest k v

/-- `dbspy.stream.Stream`: a time-indexed sequence of group elements with
sparse storage (`inner` holds only the values that differed from the
prevailing default when sent), a monotone write cursor `timestamp`, an
`identity` flag (true until a non-default value is sent), and the
default-change history `default_changes`. -/
structure Stream (T : Type) where
  inner : List (Int × T)
  timestamp : Int
  identity : Bool
  default : T
  defaultChanges : List (Int × T)
  groupOp : AbelianGroupOperation T

/-- `Stream.send`: record the element in `inner` at `timestamp + 1` and clear
the identity flag when it differs from the current default; in all cases
advance the cursor by one. -/
def Stream.send {T : Type} [DecidableEq T] (s : Stream T) (element : T) : Stream T :=
  if element ≠ s.default then
    { s with
      inner := updateA s.inner (s.timestamp + 1) element
      identity := false
      timestamp := s.timestamp + 1 }
  else
    { s with timestamp := s.timestamp + 1 }

/-- `Stream.__init__`: fresh stream over `g` with cursor `-1`, default
`g.identity`, default-change entry at 0, followed by the constructor's
implicit `send(identity)` that moves the cursor to 0. -/
def Stream.new {T : Type} [DecidableEq T] (g : AbelianGroupOperation T) : Stream T :=
  let s : Stream T :=
    { inner := []
      timestamp := -1
      identity := true
      default := g.identity
      defaultChanges := updateA [] 0 g.identity
      groupOp := g }
  s.send g.identity

/-- `Stream.group`. -/
def Stream.group {T : Type} (s : Stream T) : AbelianGroupOperation T := s.groupOp

/-- `Stream.get_current_time`. -/
def Stream.getCurrentTime {T : Type} (s : Stream T) : Int := s.timestamp

/-- `Stream.set_default`: the Python body is an acknowledged placeholder
("LEAVING EMPTY FOR NOW..") that merely returns the `NotImplementedError`
class without raising or mutating anything, so the state is unchanged. -/
def Stream.setDefault {T : Type} (s : Stream T) (_newDefault : T) : Stream T := s

/-- The `default_timestamp` computation inside `Stream.__getitem__`:
`max((t for t in self.default_changes if t < timestamp), default=0)`. -/
def Stream.defaultTimestampFor {T : Type} (s : Stream T) (timestamp : Int) : Int :=
  match (s.defaultChanges.map Prod.fst).filter (fun t => t < timestamp) with
  | [] => 0
  | x :: xs => xs.foldl max x

/-- The in-range read performed by `Stream.__getitem__` when
`timestamp <= current`: `self.inner.get(timestamp, self.default_changes[default_timestamp])`
(a missing `default_changes` key models Python's `KeyError`). -/
def Stream.readAt {T : Type} (s : Stream T) (timestamp : Int) : Except String T :=
  match lookupA s.inner timestamp with
  | some v => .ok v
  | none =>
      match lookupA s.defaultChanges (s.defaultTimestampFor timestamp) with
      | some d => .ok d
      | none => .error "KeyError"

/-- Iterated `self.send(self.default)`. -/
def Stream.extendToAux {T : Type} [DecidableEq T] : Nat → Stream T → Stream T
  | 0, s => s
  | Nat.succ n, s => Stream.extendToAux n (s.send s.default)

/-- The `while timestamp > self.get_current_time(): self.send(self.default)`
loop inside `Stream.__getitem__`: each iteration raises the cursor by one,
so the loop runs exactly `(timestamp - current)⁺` times. -/
def Stream.extendTo {T : Type} [DecidableEq T] (s : Stream T) (timestamp : Int) : Stream T :=
  Stream.extendToAux (timestamp - s.timestamp).toNat s

/-- `Stream.__getitem__`: negative timestamps raise `ValueError`; in-range
reads are side-effect free; out-of-range reads first auto-extend the stream
by sending the current default and then read. -/
def Stream.getitem {T : Type} [DecidableEq T] (s : Stream T) (timestamp : Int) :
    Except String T × Stream T :=
  if timestamp < 0 then (.error "Timestamp cannot be negative", s)
  else if timestamp ≤ s.timestamp then (s.readAt timestamp, s)
  else ((s.extendTo timestamp).readAt timestamp, s.extendTo timestamp)

/-- `Stream.latest`: read at the current cursor. -/
def Stream.latest {T : Type} [DecidableEq T] (s : Stream T) : Except String T × Stream T :=
  s.getitem s.getCurrentTime

/-- `Stream.is_identity_stream`. -/
def Stream.isIdentityStream {T : Type} (s : Stream T) : Bool := s.identity

/-- Sequential reads threading the stream state, used by `Stream.__iter__`. -/
def Stream.iterRange {T : Type} [DecidableEq T] (s : Stream T) :
    List Int → Except String (List T) × Stream T
  | [] => (.ok [], s)
  | t :: ts =>
      match s.getitem t with
      | (.ok v, s') =>
          match s'.iterRange ts with
          | (.ok vs, s'') => (.ok (v :: vs), s'')
          | (.error e, s'') => (.error e, s'')
      | (.error e, s') => (.error e, s')

/-- `range(self.get_current_time() + 1)` as a list of `Int` timestamps. -/
def intRange (n : Int) : List Int :=
  (List.range n.toNat).map (fun i => (i : Int))

/-- `Stream.to_list`: iterate over `[0, current]` inclusive. -/
def Stream.toList {T : Type} [DecidableEq T] (s : Stream T) :
    Except String (List T) × Stream T :=
  s.iterRange (intRange (s.timestamp + 1))

/-- `Stream.__eq__`: two identity streams are equal unconditionally;
otherwise the cursors must match and the explicit-value mappings must be
exactly equal (`inner` lists are built with strictly increasing keys, so
list equality coincides with Python dict equality). -/
def Stream.beq {T : Type} [DecidableEq T] (a b : Stream T) : Bool :=
  if a.isIdentityStream && b.isIdentityStream then true
  else if a.timestamp ≠ b.timestamp then false
  else decide (a.inner = b.inner)

/-- A stream built by sending the elements of `xs` in order to a fresh
stream over `g`; the canonical form of every stream the engine constructs. -/
def Stream.fromList {T : Type} [DecidableEq T] (g : AbelianGroupOperation T)
    (xs : List T) : Stream T :=
  xs.foldl Stream.send (Stream.new g)

/-- The value a stream built from `xs` holds at timestamp `t`:
the implicit identity at 0, and the `(t-1)`-th sent element there-after
(defaulting to the identity past the end). -/
def nthVal {T : Type} (g : AbelianGroupOperation T) (xs : List T) : Nat → T
  | 0 => g.identity
  | Nat.succ n => xs.getD n g.identity

/-- The integers under addition: the concrete group of the spec scenarios. -/
def intGroup : AbelianGroupOperation Int :=
  { add := fun a b => a + b, neg := fun a => -a, identity := 0 }

theorem intGroup_laws : IsAbelianGroup intGroup := by
  constructor <;> intro a <;> intros <;> simp [intGroup] <;> omega

/-! ### Association-list lemmas -/

theorem lookupA_append_left {α : Type} {l₁ : List (Int × α)} (l₂ : List (Int × α))
    {t : Int} {v : α} (h : lookupA l₁ t = some v) :
    lookupA (l₁ ++ l₂) t = some v := by
  induction l₁ with
  | nil => simp [lookupA] at h
  | cons kv rest ih =>
      obtain ⟨k, w⟩ := kv
      simp only [lookupA, List.cons_append] at h ⊢
      split at h
      · simp [*]
      · simp only [*, if_neg]; exact ih h

theorem lookupA_append_right {α : Type} {l₁ : List (Int × α)} (l₂ : List (Int × α))
    {t : Int} (h : lookupA l₁ t = none) :
    lookupA (l₁ ++ l₂) t = lookupA l₂ t := by
  induction l₁ with
  | nil => simp
  | cons kv rest ih =>
      obtain ⟨k, w⟩ := kv
      simp only [lookupA, List.cons_append] at h ⊢
      split at h
      · exact absurd h (by simp)
      · simp only [*, if_neg]; exact ih h

theorem lookupA_eq_none {α : Type} {l : List (Int × α)} {t : Int}
    (h : ∀ kv ∈ l, kv.1 ≠ t) : lookupA l t = none := by
  induction l with
  | nil => rfl
  | cons kv rest ih =>
      obtain ⟨k, w⟩ := kv
      simp only [lookupA]
      rw [if_neg (h (k, w) (by simp))]
      exact ih (fun kv hkv => h kv (by simp [hkv]))

theorem updateA_eq_append {α : Type} {l : List (Int × α)} {k : Int} {v : α}
    (h : ∀ kv ∈ l, kv.1 ≠ k) : updateA l k v = l ++ [(k, v)] := by
  induction l with
  | nil => rfl
  | cons kv rest ih =>
      obtain ⟨k', w⟩ := kv
      simp only [updateA]
      rw [if_neg (h (k', w) (by simp))]
      simp only [List.cons_append, List.cons.injEq, true_and]
      exact ih (fun kv hkv => h kv (by simp [hkv]))

/-! ### Field lemmas for `send`, `new`, `fromList` -/

theorem Stream.send_timestamp {T : Type} [DecidableEq T] (s : Stream T) (x : T) :
    (s.send x).timestamp = s.timestamp + 1 := by
  simp only [Stream.send]; split <;> rfl

theorem Stream.send_default {T : Type} [DecidableEq T] (s : Stream T) (x : T) :
    (s.send x).default = s.default := by
  simp only [Stream.send]; split <;> rfl

theorem Stream.send_defaultChanges {T : Type} [DecidableEq T] (s : Stream T) (x : T) :
    (s.send x).defaultChanges = s.defaultChanges := by
  simp only [Stream.send]; split <;> rfl

theorem Stream.send_groupOp {T : Type} [DecidableEq T] (s : Stream T) (x : T) :
    (s.send x).groupOp = s.groupOp := by
  simp only [Stream.send]; split <;> rfl

/-- Sending the current default never stores anything: only the cursor moves. -/
theorem Stream.send_self_default {T : Type} [DecidableEq T] (s : Stream T) :
    s.send s.default = { s with timestamp := s.timestamp + 1 } := by
  simp [Stream.send]

theorem Stream.new_eq {T : Type} [DecidableEq T] (g : AbelianGroupOperation T) :
    Stream.new g =
      { inner := [], timestamp := 0, identity := true, default := g.identity,
        defaultChanges := [(0, g.identity)], groupOp := g } := by
  simp [Stream.new, Stream.send, updateA]

theorem Stream.fromList_nil {T : Type} [DecidableEq T] (g : AbelianGroupOperation T) :
    Stream.fromList g [] = Stream.new g := rfl

theorem Stream.fromList_concat {T : Type} [DecidableEq T] (g : AbelianGroupOperation T)
    (xs : List T) (x : T) :
    Stream.fromList g (xs ++ [x]) = (Stream.fromList g xs).send x := by
  simp [Stream.fromList]

theorem Stream.fromList_send_nil {T : Type} [DecidableEq T]
    (g : AbelianGroupOperation T) (x : T) :
    (Stream.fromList g []).send x = Stream.fromList g [x] := by
  rw [← Stream.fromList_concat]
  simp

theorem Stream.fromList_timestamp {T : Type} [DecidableEq T]
    (g : AbelianGroupOperation T) (xs : List T) :
    (Stream.fromList g xs).timestamp = xs.length := by
  induction xs using List.reverseRecOn with
  | nil => simp [Stream.fromList_nil, Stream.new_eq]
  | append_singleton ys y ih =>
      rw [Stream.fromList_concat, Stream.send_timestamp, ih]
      simp

theorem Stream.fromList_default {T : Type} [DecidableEq T]
    (g : AbelianGroupOperation T) (xs : List T) :
    (Stream.fromList g xs).default = g.identity := by
  induction xs using List.reverseRecOn with
  | nil => simp [Stream.fromList_nil, Stream.new_eq]
  | append_singleton ys y ih => rw [Stream.fromList_concat, Stream.send_default, ih]

theorem Stream.fromList_defaultChanges {T : Type} [DecidableEq T]
    (g : AbelianGroupOperation T) (xs : List T) :
    (Stream.fromList g xs).defaultChanges = [(0, g.identity)] := by
  induction xs using List.reverseRecOn with
  | nil => simp [Stream.fromList_nil, Stream.new_eq]
  | append_singleton ys y ih => rw [Stream.fromList_concat, Stream.send_defaultChanges, ih]

theorem Stream.fromList_groupOp {T : Type} [DecidableEq T]
    (g : AbelianGroupOperation T) (xs : List T) :
    (Stream.fromList g xs).groupOp = g := by
  induction xs using List.reverseRecOn with
  | nil => simp [Stream.fromList_nil, Stream.new_eq]
  | append_singleton ys y ih => rw [Stream.fromList_concat, Stream.send_groupOp, ih]

theorem Stream.fromList_inner_keys {T : Type} [DecidableEq T]
    (g : AbelianGroupOperation T) (xs : List T) :
    ∀ kv ∈ (Stream.fromList g xs).inner, 1 ≤ kv.1 ∧ kv.1 ≤ (xs.length : Int) := by
  induction xs using List.reverseRecOn with
  | nil => simp [Stream.fromList_nil, Stream.new_eq]
  | append_singleton ys y ih =>
      intro kv hkv
      rw [Stream.fromList_concat] at hkv
      simp only [Stream.send] at hkv
      split at hkv
      · simp only at hkv
        rw [updateA_eq_append (fun kv h => by
              have := ih kv h
              rw [Stream.fromList_timestamp] at *
              omega)] at hkv
        rw [Stream.fromList_timestamp] at hkv
        rcases List.mem_append.mp hkv with h | h
        · have := ih kv h; simp only [List.length_append, List.length_singleton]
          push_cast; omega
        · simp at h; simp only [List.length_append, List.length_singleton]
          rcases h with ⟨h1, _⟩; push_cast; omega
      · have := ih kv hkv; simp only [List.length_append, List.length_singleton]
        push_cast; omega

/-! ### Read lemmas -/

/-- With the (always-true in this program) default-change history `[(0, d)]`,
the read of `__getitem__` at a non-negative in-range timestamp is the `inner`
entry when present and `d` otherwise. -/
theorem Stream.readAt_of_dc {T : Type} {s : Stream T} {d : T}
    (hdc : s.defaultChanges = [(0, d)]) (t : Int) :
    s.readAt t = .ok ((lookupA s.inner t).getD d) := by
  have hdt : lookupA s.defaultChanges (s.defaultTimestampFor t) = some d := by
    rw [hdc]
    simp only [Stream.defaultTimestampFor, hdc]
    by_cases h : (0 : Int) < t
    · simp [List.filter, h, lookupA]
    · simp [List.filter, h, lookupA]
  unfold Stream.readAt
  rw [hdt]
  cases h : lookupA s.inner t <;> simp [h]

theorem Stream.extendToAux_eq {T : Type} [DecidableEq T] (k : Nat) (s : Stream T) :
    Stream.extendToAux k s = { s with timestamp := s.timestamp + k } := by
  induction k generalizing s with
  | zero => simp [Stream.extendToAux]
  | succ n ih =>
      rw [Stream.extendToAux, Stream.send_self_default, ih]
      simp only [Stream.mk.injEq, and_true, true_and]
      push_cast; omega

theorem Stream.extendTo_eq {T : Type} [DecidableEq T] (s : Stream T) (t : Int) :
    s.extendTo t = { s with timestamp := max s.timestamp t } := by
  rw [Stream.extendTo, Stream.extendToAux_eq]
  simp only [Stream.mk.injEq, and_true, true_and]
  omega

/-- Reads at `0 ≤ t ≤ current` have no side effect. -/
theorem Stream.getitem_in_range {T : Type} [DecidableEq T] {s : Stream T} {t : Int}
    (h0 : 0 ≤ t) (h1 : t ≤ s.timestamp) :
    s.getitem t = (s.readAt t, s) := by
  unfold Stream.getitem
  rw [if_neg (by omega), if_pos h1]

/-- Out-of-range reads on a stream whose `inner` keys are all in range:
the stream is extended to cursor `t` (nothing is stored, since the values
sent equal the current default) and the read falls back to the
default-change entry. -/
theorem Stream.getitem_out_of_range {T : Type} [DecidableEq T] {s : Stream T} {d : T}
    (hdc : s.defaultChanges = [(0, d)])
    (hkeys : ∀ kv ∈ s.inner, kv.1 ≤ s.timestamp)
    {t : Int} (hts : 0 ≤ s.timestamp) (ht : s.timestamp < t) :
    s.getitem t = (.ok d, { s with timestamp := t }) := by
  unfold Stream.getitem
  rw [if_neg (by omega), if_neg (by omega)]
  rw [Stream.extendTo_eq]
  have hmax : max s.timestamp t = t := by omega
  rw [hmax]
  have hnone : lookupA s.inner t = none :=
    lookupA_eq_none (fun kv hkv => by have := hkeys kv hkv; omega)
  rw [Stream.readAt_of_dc (s := { s with timestamp := t }) hdc t]
  simp [hnone]

/-- `latest()` never moves the stream: it reads at the current cursor, which
is always in range (or negative, in which case the error also leaves the
stream alone). -/
theorem Stream.latest_snd {T : Type} [DecidableEq T] (s : Stream T) :
    (s.latest).2 = s := by
  unfold Stream.latest Stream.getitem Stream.getCurrentTime
  by_cases h : s.timestamp < 0
  · rw [if_pos h]
  · rw [if_neg h, if_pos le_rfl]

/-- Any read at a non-negative timestamp on a well-formed stream succeeds and
only (possibly) advances the cursor, to `max current t`. -/
theorem Stream.getitem_ok {T : Type} [DecidableEq T] {s : Stream T} {d : T}
    (hdc : s.defaultChanges = [(0, d)])
    (hkeys : ∀ kv ∈ s.inner, kv.1 ≤ s.timestamp)
    (hts : 0 ≤ s.timestamp) {t : Int} (ht : 0 ≤ t) :
    ∃ v, s.getitem t = (.ok v, { s with timestamp := max s.timestamp t }) := by
  by_cases h : t ≤ s.timestamp
  · have hmax : max s.timestamp t = s.timestamp := by omega
    rw [hmax]
    refine ⟨(lookupA s.inner t).getD d, ?_⟩
    rw [Stream.getitem_in_range ht h, Stream.readAt_of_dc hdc]
  · have hmax : max s.timestamp t = t := by omega
    rw [hmax]
    exact ⟨d, Stream.getitem_out_of_range hdc hkeys hts (by omega)⟩

theorem nthVal_append_of_le {T : Type} (g : AbelianGroupOperation T)
    {xs : List T} (zs : List T) {t : Nat} (ht : t ≤ xs.length) :
    nthVal g (xs ++ zs) t = nthVal g xs t := by
  cases t with
  | zero => rfl
  | succ n =>
      simp only [nthVal]
      rw [List.getD_append _ _ _ _ (by omega)]

theorem nthVal_append_last {T : Type} (g : AbelianGroupOperation T)
    (xs : List T) (y : T) :
    nthVal g (xs ++ [y]) (xs.length + 1) = y := by
  simp only [nthVal]
  rw [List.getD_append_right _ _ _ _ (by omega)]
  simp

/-- `inner` lookup on a stream built from a list: the value at timestamp
`t ≤ length` (with the shared default `d = g.identity` filled in) is
`nthVal g xs t`. -/
theorem Stream.lookupA_fromList {T : Type} [DecidableEq T]
    (g : AbelianGroupOperation T) (xs : List T) (t : Nat) (ht : t ≤ xs.length) :
    (lookupA (Stream.fromList g xs).inner (t : Int)).getD g.identity = nthVal g xs t := by
  induction xs using List.reverseRecOn generalizing t with
  | nil =>
      have ht0 : t = 0 := by simpa using ht
      subst ht0
      simp [Stream.fromList_nil, Stream.new_eq, lookupA, nthVal]
  | append_singleton ys y ih =>
      rw [Stream.fromList_concat]
      have hdef : (Stream.fromList g ys).default = g.identity := Stream.fromList_default g ys
      have hts : (Stream.fromList g ys).timestamp = ys.length := Stream.fromList_timestamp g ys
      have hfresh : ∀ kv ∈ (Stream.fromList g ys).inner,
          kv.1 ≠ (Stream.fromList g ys).timestamp + 1 := by
        intro kv hkv
        have := Stream.fromList_inner_keys g ys kv hkv
        omega
      have hnoneTop : lookupA (Stream.fromList g ys).inner ((ys.length : Int) + 1) = none :=
        lookupA_eq_none (fun kv hkv => by
          have := Stream.fromList_inner_keys g ys kv hkv; omega)
      by_cases hy : y = g.identity
      · -- value equals the default: nothing stored, only the cursor moves
        have hsend : (Stream.fromList g ys).send y =
            { Stream.fromList g ys with timestamp := (Stream.fromList g ys).timestamp + 1 } := by
          rw [hy, ← hdef, Stream.send_self_default]
        rw [hsend]
        by_cases hlt : t ≤ ys.length
        · rw [nthVal_append_of_le g [y] hlt]
          exact ih t hlt
        · have htt : t = ys.length + 1 := by simp at ht; omega
          subst htt
          rw [nthVal_append_last g ys y, hy]
          have : ((ys.length + 1 : Nat) : Int) = (ys.length : Int) + 1 := by push_cast; omega
          rw [this, hnoneTop]
          rfl
      · -- a genuinely new value is appended at the fresh key `length + 1`
        have hsend : ((Stream.fromList g ys).send y).inner =
            (Stream.fromList g ys).inner ++ [((ys.length : Int) + 1, y)] := by
          simp only [Stream.send, hdef]
          rw [if_pos hy]
          simp only
          rw [updateA_eq_append hfresh, hts]
        rw [hsend]
        by_cases hlt : t ≤ ys.length
        · have hne : ((ys.length : Int) + 1) ≠ (t : Int) := by omega
          rw [nthVal_append_of_le g [y] hlt, ← ih t hlt]
          cases hv : lookupA (Stream.fromList g ys).inner (t : Int) with
          | some v => rw [lookupA_append_left _ hv]
          | none =>
              rw [lookupA_append_right _ hv]
              simp [lookupA, if_neg hne]
        · have htt : t = ys.length + 1 := by simp at ht; omega
          subst htt
          rw [nthVal_append_last g ys y]
          have hcast : ((ys.length + 1 : Nat) : Int) = (ys.length : Int) + 1 := by
            push_cast; omega
          rw [hcast, lookupA_append_right _ hnoneTop]
          simp [lookupA]

theorem Stream.readAt_fromList {T : Type} [DecidableEq T]
    (g : AbelianGroupOperation T) (xs : List T) (t : Nat) (ht : t ≤ xs.length) :
    (Stream.fromList g xs).readAt (t : Int) = .ok (nthVal g xs t) := by
  rw [Stream.readAt_of_dc (Stream.fromList_defaultChanges g xs),
    Stream.lookupA_fromList g xs t ht]

/-- In-range `__getitem__` on a list-built stream: no side effect, value
`nthVal`. -/
theorem Stream.getitem_fromList_le {T : Type} [DecidableEq T]
    (g : AbelianGroupOperation T) (xs : List T) (t : Nat) (ht : t ≤ xs.length) :
    (Stream.fromList g xs).getitem (t : Int) =
      (.ok (nthVal g xs t), Stream.fromList g xs) := by
  rw [Stream.getitem_in_range (by omega)
    (by rw [Stream.fromList_timestamp]; omega)]
  rw [Stream.readAt_fromList g xs t ht]

/-- Appending `k` copies of the identity to the build list only moves the
cursor: the sent values equal the default, so nothing is stored. -/
theorem Stream.fromList_append_replicate {T : Type} [DecidableEq T]
    (g : AbelianGroupOperation T) (xs : List T) (k : Nat) :
    Stream.fromList g (xs ++ List.replicate k g.identity) =
      { Stream.fromList g xs with timestamp := (xs.length : Int) + k } := by
  induction k with
  | zero =>
      simp only [List.replicate, List.append_nil, Nat.cast_zero, add_zero]
      rw [← Stream.fromList_timestamp g xs]
  | succ n ih =>
      have : xs ++ List.replicate (n + 1) g.identity =
          (xs ++ List.replicate n g.identity) ++ [g.identity] := by
        simp [List.replicate_succ, List.append_assoc]
        rw [← List.replicate_succ, List.replicate_succ']
      rw [this, Stream.fromList_concat, ih]
      have hdef : (Stream.fromList g xs).default = g.identity := Stream.fromList_default g xs
      rw [show g.identity = ({ Stream.fromList g xs with
            timestamp := (xs.length : Int) + n } : Stream T).default from hdef.symm,
        Stream.send_self_default]
      simp only [Stream.mk.injEq, and_true, true_and]
      push_cast; omega

/-- Out-of-range `__getitem__` on a list-built stream: the stream is
extended to cursor `t` (equivalently, rebuilt from the identity-padded
list) and the read returns the identity default. -/
theorem Stream.getitem_fromList_gt {T : Type} [DecidableEq T]
    (g : AbelianGroupOperation T) (xs : List T) (t : Nat) (ht : xs.length < t) :
    (Stream.fromList g xs).getitem (t : Int) =
      (.ok g.identity,
        Stream.fromList g (xs ++ List.replicate (t - xs.length) g.identity)) := by
  rw [Stream.getitem_out_of_range (Stream.fromList_defaultChanges g xs)
    (fun kv hkv => by
      rw [Stream.fromList_timestamp]
      exact (Stream.fromList_inner_keys g xs kv hkv).2)
    (by rw [Stream.fromList_timestamp]; omega)
    (by rw [Stream.fromList_timestamp]; omega)]
  rw [Stream.fromList_append_replicate]
  have : ((xs.length : Int) + (t - xs.length : Nat)) = (t : Int) := by omega
  rw [this]

/-! ### Operators

Each operator's mutable state (input stream(s), owned output stream,
frontiers) is a structure, and `step` is a state transformer returning the
Python method's boolean; `Except` carries any propagated exception. -/

/-- State of a `Lift1` operator: one input line with its frontier, plus the
owned output stream. -/
structure Lift1State (T R : Type) where
  input : Stream T
  output : Stream R
  frontier : Int

/-- `Lift1.step`: join/meet over input cursor, output cursor and frontier;
when they coincide report `true`; otherwise read the input at `frontier+1`
(which may lazily extend it), apply `f1` once, append to the output, bump
the frontier and report `false`. -/
def lift1Step {T R : Type} [DecidableEq T] [DecidableEq R] (f1 : T → R)
    (st : Lift1State T R) : Except String (Lift1State T R × Bool) :=
  let outputTimestamp := st.output.timestamp
  let inputTimestamp := st.input.timestamp
  let join := max inputTimestamp (max outputTimestamp st.frontier)
  let meet := min inputTimestamp (min outputTimestamp st.frontier)
  if join = meet then .ok (st, true)
  else
    let nextFrontier := st.frontier + 1
    match st.input.getitem nextFrontier with
    | (.ok v, input') =>
        .ok ({ input := input', output := st.output.send (f1 v),
               frontier := nextFrontier }, false)
    | (.error e, _) => .error e

/-- `Lift1.__init__` with a `None` output group: the output stream is
created over the input's group, the frontier starts at 0. -/
def lift1Init {T : Type} [DecidableEq T] (s : Stream T) : Lift1State T T :=
  { input := s, output := Stream.new s.groupOp, frontier := 0 }

/-- State of a `Lift2` operator: two input lines with their frontiers, plus
the owned output stream. -/
structure Lift2State (T R S : Type) where
  a : Stream T
  b : Stream R
  out : Stream S
  frontierA : Int
  frontierB : Int

/-- `Lift2.step`: join/meet over both input cursors, the output cursor and
both frontiers; when they coincide report `true`; otherwise read input A at
`frontier_a+1`, then input B at `frontier_b+1` (each read may lazily extend
that input), apply `f2` once, append to the output, bump both frontiers and
report `false`. -/
def lift2Step {T R S : Type} [DecidableEq T] [DecidableEq R] [DecidableEq S]
    (f2 : T → R → S) (st : Lift2State T R S) :
    Except String (Lift2State T R S × Bool) :=
  let aTimestamp := st.a.timestamp
  let bTimestamp := st.b.timestamp
  let outputTimestamp := st.out.timestamp
  let join := max aTimestamp (max bTimestamp (max outputTimestamp
    (max st.frontierA st.frontierB)))
  let meet := min aTimestamp (min bTimestamp (min outputTimestamp
    (min st.frontierA st.frontierB)))
  if join = meet then .ok (st, true)
  else
    let nfa := st.frontierA + 1
    let nfb := st.frontierB + 1
    match st.a.getitem nfa with
    | (.error e, _) => .error e
    | (.ok av, a') =>
        match st.b.getitem nfb with
        | (.error e, _) => .error e
        | (.ok bv, b') =>
            .ok ({ a := a', b := b', out := st.out.send (f2 av bv),
                   frontierA := nfa, frontierB := nfb }, false)

/-- State of a `Delay` operator. -/
structure DelayState (T : Type) where
  input : Stream T
  output : Stream T

/-- `Delay.step`: while the output cursor is ≤ the input cursor, append the
input value recorded at the output's current cursor position and report
`false`; otherwise report `true`. -/
def delayStep {T : Type} [DecidableEq T] (st : DelayState T) :
    Except String (DelayState T × Bool) :=
  let outputTimestamp := st.output.timestamp
  let inputTimestamp := st.input.timestamp
  if outputTimestamp ≤ inputTimestamp then
    match st.input.getitem outputTimestamp with
    | (.ok v, input') => .ok ({ input := input', output := st.output.send v }, false)
    | (.error e, _) => .error e
  else .ok (st, true)

/-- `Delay.__init__`: output stream over the input's group. -/
def delayInit {T : Type} [DecidableEq T] (s : Stream T) : DelayState T :=
  { input := s, output := Stream.new s.groupOp }

/-- `step_until_fixpoint`, fuel-indexed: repeat `step` until it reports
`true` and return the final state (the Python loop is unbounded; theorems
supply sufficient fuel). -/
def drain {σ : Type} (step : σ → Except String (σ × Bool)) :
    Nat → σ → Except String σ
  | 0, _ => .error "OutOfFuel"
  | Nat.succ n, st =>
      match step st with
      | .error e => .error e
      | .ok (st', true) => .ok st'
      | .ok (st', false) => drain step n st'

/-- State of a `Differentiate` operator: the input, the three internal
output streams (delay / negate / add) and the three internal frontiers. -/
structure DifferentiateState (T : Type) where
  input : Stream T
  del : Stream T
  neg : Stream T
  out : Stream T
  fNeg : Int
  fA : Int
  fB : Int

/-- `Differentiate.step`: advance the internal Delay, then the lifted group
negate, then the lifted group add (whose inputs are the original stream and
the negated delayed stream), once each, in that order, and report whether the
output cursor has caught up with the input cursor. The negate's function is
the delayed stream's group negation and the add's is the input stream's
group addition, exactly as the `LiftedGroupNegate`/`LiftedGroupAdd` closures
resolve them. -/
def differentiateStep {T : Type} [DecidableEq T] (st : DifferentiateState T) :
    Except String (DifferentiateState T × Bool) :=
  match delayStep { input := st.input, output := st.del } with
  | .error e => .error e
  | .ok (d1, _) =>
      match lift1Step d1.output.groupOp.neg
          { input := d1.output, output := st.neg, frontier := st.fNeg } with
      | .error e => .error e
      | .ok (n1, _) =>
          match lift2Step d1.input.groupOp.add
              { a := d1.input, b := n1.output, out := st.out,
                frontierA := st.fA, frontierB := st.fB } with
          | .error e => .error e
          | .ok (l2, _) =>
              .ok ({ input := l2.a, del := n1.input, neg := l2.b, out := l2.out,
                     fNeg := n1.frontier, fA := l2.frontierA, fB := l2.frontierB },
                   decide (l2.out.timestamp = l2.a.timestamp))

/-- `Differentiate.__init__`: all three internal output streams are created
over the input's group, all frontiers start at 0. -/
def differentiateInit {T : Type} [DecidableEq T] (s : Stream T) : DifferentiateState T :=
  { input := s, del := Stream.new s.groupOp, neg := Stream.new s.groupOp,
    out := Stream.new s.groupOp, fNeg := 0, fA := 0, fB := 0 }

/-- State of an `Integrate` operator: the input, the add operator's output
`out` (which is also the internal Delay's input via the feedback handle),
the delay's output `del` (the add operator's second input) and the add
operator's two frontiers. -/
structure IntegrateState (T : Type) where
  input : Stream T
  out : Stream T
  del : Stream T
  fA : Int
  fB : Int

/-- `Integrate.step`: advance the internal Delay (whose input is the add
operator's own output, the feedback edge), then the lifted group add, once
each, and report whether the output cursor has caught up with the input
cursor. -/
def integrateStep {T : Type} [DecidableEq T] (st : IntegrateState T) :
    Except String (IntegrateState T × Bool) :=
  match delayStep { input := st.out, output := st.del } with
  | .error e => .error e
  | .ok (d1, _) =>
      match lift2Step st.input.groupOp.add
          { a := st.input, b := d1.output, out := d1.input,
            frontierA := st.fA, frontierB := st.fB } with
      | .error e => .error e
      | .ok (l2, _) =>
          .ok ({ input := l2.a, out := l2.out, del := l2.b,
                 fA := l2.frontierA, fB := l2.frontierB },
               decide (l2.out.timestamp = l2.a.timestamp))

/-- `Integrate.__init__`: the add output and the delay output are created
over the input's group, both frontiers start at 0. -/
def integrateInit {T : Type} [DecidableEq T] (s : Stream T) : IntegrateState T :=
  { input := s, out := Stream.new s.groupOp, del := Stream.new s.groupOp,
    fA := 0, fB := 0 }

/-- `step_until_fixpoint_set_new_default_then_return` for an `Integrate`
operator: drain to fixpoint, read the output's latest value, call
`set_default` with it, and return the output stream. -/
def stepUntilFixpointSetNewDefaultThenReturn {T : Type} [DecidableEq T]
    (fuel : Nat) (st : IntegrateState T) : Except String (Stream T) :=
  match drain integrateStep fuel st with
  | .error e => .error e
  | .ok st' =>
      match st'.out.latest with
      | (.ok latestValue, out') => .ok (out'.setDefault latestValue)
      | (.error e, _) => .error e

/-- `StreamAddition.add`: wrap both operands in handles, drain a
`LiftedGroupAdd` (a `Lift2` of the underlying group's addition, output over
operand A's group) to fixpoint, fix up the result's default when either
operand is an identity stream, and return the result together with the
post-call states of both operands. -/
def streamAdditionAdd {T : Type} [DecidableEq T] (fuel : Nat) (a b : Stream T) :
    Except String (Stream T × Stream T × Stream T) :=
  match drain (lift2Step a.groupOp.add) fuel
      { a := a, b := b, out := Stream.new a.groupOp, frontierA := 0, frontierB := 0 } with
  | .error e => .error e
  | .ok st =>
      let step1 := if st.a.isIdentityStream then { st.out with default := st.b.default }
        else st.out
      let step2 := if st.b.isIdentityStream then { step1 with default := st.a.default }
        else step1
      .ok (step2, st.a, st.b)

/-! ### Prefix sums and consecutive differences at the list level -/

/-- Running group sums of `xs` with accumulator `acc`: the values the
`Integrate` feedback circuit sends, in order (`S_k = add(x_k, S_{k-1})`). -/
def sumsFrom {T : Type} (g : AbelianGroupOperation T) (acc : T) : List T → List T
  | [] => []
  | x :: xs => g.add x acc :: sumsFrom g (g.add x acc) xs

/-- Consecutive differences of `xs` against previous value `prev`: the values
the `Differentiate` pipeline sends, in order (`d_k = add(x_k, neg(x_{k-1}))`). -/
def diffsFrom {T : Type} (g : AbelianGroupOperation T) (prev : T) : List T → List T
  | [] => []
  | x :: xs => g.add x (g.neg prev) :: diffsFrom g x xs

/-- `Σ_{k ≤ t} input[k]` in the exact association the circuit computes,
with `input[0]` the implicit identity. -/
def sumTo {T : Type} (g : AbelianGroupOperation T) (xs : List T) : Nat → T
  | 0 => g.identity
  | Nat.succ t => g.add (nthVal g xs (t + 1)) (sumTo g xs t)

theorem sumsFrom_length {T : Type} (g : AbelianGroupOperation T) (acc : T)
    (xs : List T) : (sumsFrom g acc xs).length = xs.length := by
  induction xs generalizing acc with
  | nil => rfl
  | cons x rest ih => simp [sumsFrom, ih]

theorem diffsFrom_length {T : Type} (g : AbelianGroupOperation T) (prev : T)
    (xs : List T) : (diffsFrom g prev xs).length = xs.length := by
  induction xs generalizing prev with
  | nil => rfl
  | cons x rest ih => simp [diffsFrom, ih]

/-- `S_{k+1} = add(x_{k+1}, S_k)` at the list level. -/
theorem sumsFrom_getD {T : Type} (g : AbelianGroupOperation T) (d : T)
    (xs : List T) (acc : T) (k : Nat) (hk : k < xs.length) :
    (sumsFrom g acc xs).getD k d =
      g.add (xs.getD k d) ((acc :: sumsFrom g acc xs).getD k d) := by
  induction xs generalizing acc k with
  | nil => simp at hk
  | cons x rest ih =>
      cases k with
      | zero => simp [sumsFrom]
      | succ n =>
          simp only [sumsFrom, List.getD_cons_succ]
          exact ih (g.add x acc) n (by simpa using hk)

/-- `d_{k+1} = add(x_{k+1}, neg(x_k))` at the list level. -/
theorem diffsFrom_getD {T : Type} (g : AbelianGroupOperation T) (d : T)
    (xs : List T) (prev : T) (k : Nat) (hk : k < xs.length) :
    (diffsFrom g prev xs).getD k d =
      g.add (xs.getD k d) (g.neg ((prev :: xs).getD k d)) := by
  induction xs generalizing prev k with
  | nil => simp at hk
  | cons x rest ih =>
      cases k with
      | zero => simp [diffsFrom]
      | succ n =>
          simp only [diffsFrom, List.getD_cons_succ]
          exact ih x n (by simpa using hk)

/-- Integrating the differences recovers the original list (telescoping). -/
theorem sumsFrom_diffsFrom {T : Type} {g : AbelianGroupOperation T}
    (hG : IsAbelianGroup g) (xs : List T) (p : T) :
    sumsFrom g p (diffsFrom g p xs) = xs := by
  induction xs generalizing p with
  | nil => rfl
  | cons x rest ih =>
      simp only [diffsFrom, sumsFrom]
      have hx : g.add (g.add x (g.neg p)) p = x := by
        rw [hG.add_assoc, hG.add_comm (g.neg p) p, hG.add_inverse, hG.add_identity]
      rw [hx, ih x]

/-- Differencing the running sums recovers the original list (telescoping). -/
theorem diffsFrom_sumsFrom {T : Type} {g : AbelianGroupOperation T}
    (hG : IsAbelianGroup g) (xs : List T) (p : T) :
    diffsFrom g p (sumsFrom g p xs) = xs := by
  induction xs generalizing p with
  | nil => rfl
  | cons x rest ih =>
      simp only [sumsFrom, diffsFrom]
      have hx : g.add (g.add x p) (g.neg p) = x := by
        rw [hG.add_assoc, hG.add_inverse, hG.add_identity]
      rw [hx, ih (g.add x p)]

/-! ### Auxiliary list and stream lemmas for the fixpoint-drain proofs -/

theorem take_succ_getD {α : Type} (l : List α) (k : Nat) (d : α) (hk : k < l.length) :
    l.take (k + 1) = l.take k ++ [l.getD k d] := by
  induction l generalizing k with
  | nil => simp at hk
  | cons x rest ih =>
      cases k with
      | zero => simp
      | succ n =>
          simp only [List.take_succ_cons, List.getD_cons_succ, List.cons_append,
            List.cons.injEq, true_and]
          exact ih n (by simpa using hk)

theorem getD_take {α : Type} (l : List α) (k i : Nat) (d : α) (hik : i < k) :
    (l.take k).getD i d = l.getD i d := by
  induction l generalizing k i with
  | nil => simp
  | cons x rest ih =>
      cases k with
      | zero => omega
      | succ n =>
          cases i with
          | zero => simp
          | succ j =>
              simp only [List.take_succ_cons, List.getD_cons_succ]
              exact ih n j (by omega)

theorem getD_map_of_lt {α β : Type} (f : α → β) (l : List α) (i : Nat)
    (d : β) (d' : α) (h : i < l.length) :
    (l.map f).getD i d = f (l.getD i d') := by
  induction l generalizing i with
  | nil => simp at h
  | cons x rest ih =>
      cases i with
      | zero => simp
      | succ j =>
          simp only [List.map_cons, List.getD_cons_succ]
          exact ih j (by simpa using h)

/-- The value list `identity :: xs` realises `nthVal`. -/
theorem cons_getD_nthVal {T : Type} (g : AbelianGroupOperation T) (xs : List T)
    (k : Nat) : (g.identity :: xs).getD k g.identity = nthVal g xs k := by
  cases k <;> rfl

theorem nthVal_take_self {T : Type} (g : AbelianGroupOperation T) (l : List T)
    (k : Nat) : nthVal g (l.take k) k = nthVal g l k := by
  cases k with
  | zero => rfl
  | succ n =>
      simp only [nthVal]
      exact getD_take l (n + 1) n g.identity (by omega)

theorem nthVal_take_of_le {T : Type} (g : AbelianGroupOperation T) (l : List T)
    {t k : Nat} (ht : t ≤ k) : nthVal g (l.take k) t = nthVal g l t := by
  cases t with
  | zero => rfl
  | succ n =>
      simp only [nthVal]
      exact getD_take l k n g.identity (by omega)

/-- The running-sum list realises `sumTo`. -/
theorem nthVal_sums_eq_sumTo {T : Type} (g : AbelianGroupOperation T)
    (xs : List T) (t : Nat) (ht : t ≤ xs.length) :
    nthVal g (sumsFrom g g.identity xs) t = sumTo g xs t := by
  induction t with
  | zero => rfl
  | succ n ih =>
      simp only [nthVal, sumTo]
      rw [sumsFrom_getD g g.identity xs g.identity n (by omega),
        cons_getD_nthVal, ih (by omega)]

theorem Stream.beq_self {T : Type} [DecidableEq T] (s : Stream T) :
    s.beq s = true := by
  by_cases h : s.identity <;>
    simp [Stream.beq, Stream.isIdentityStream, h]

/-- Two streams whose identity flags are still set compare equal. -/
theorem Stream.beq_of_identity {T : Type} [DecidableEq T] {a b : Stream T}
    (ha : a.identity = true) (hb : b.identity = true) : a.beq b = true := by
  simp [Stream.beq, Stream.isIdentityStream, ha, hb]

/-- Building a stream purely from identity values keeps the identity flag. -/
theorem Stream.fromList_identity_of_all {T : Type} [DecidableEq T]
    (g : AbelianGroupOperation T) (xs : List T) (h : ∀ x ∈ xs, x = g.identity) :
    (Stream.fromList g xs).identity = true := by
  induction xs using List.reverseRecOn with
  | nil => simp [Stream.fromList_nil, Stream.new_eq]
  | append_singleton ys y ih =>
      rw [Stream.fromList_concat]
      have hy : y = (Stream.fromList g ys).default := by
        rw [Stream.fromList_default]
        exact h y (by simp)
      rw [hy, Stream.send_self_default]
      exact ih (fun x hx => h x (by simp [hx]))

/-- In a group satisfying the laws, the negation of the identity is the
identity (needed for the symbolic one-step drains on empty inputs). -/
theorem IsAbelianGroup.neg_identity {T : Type} {g : AbelianGroupOperation T}
    (hG : IsAbelianGroup g) : g.neg g.identity = g.identity := by
  have h1 := hG.add_inverse g.identity
  rw [hG.add_comm, hG.add_identity] at h1
  exact h1

/-! ### Drain characterization for Delay -/

/-- The Delay circuit state after `k` drain steps on input `fromList g xs`:
the output holds the first `k` values of `identity :: xs`. -/
def delayStage {T : Type} [DecidableEq T] (g : AbelianGroupOperation T)
    (xs : List T) (k : Nat) : DelayState T :=
  { input := Stream.fromList g xs
    output := Stream.fromList g ((g.identity :: xs).take k) }

theorem delayStage_zero {T : Type} [DecidableEq T] (g : AbelianGroupOperation T)
    (xs : List T) : delayInit (Stream.fromList g xs) = delayStage g xs 0 := by
  unfold delayInit delayStage
  rw [Stream.fromList_groupOp, List.take_zero, Stream.fromList_nil]

theorem delayStep_stage {T : Type} [DecidableEq T] (g : AbelianGroupOperation T)
    (xs : List T) (k : Nat) (hk : k ≤ xs.length) :
    delayStep (delayStage g xs k) = .ok (delayStage g xs (k + 1), false) := by
  have hlen : ((g.identity :: xs).take k).length = k := by
    simp only [List.length_take, List.length_cons]; omega
  simp only [delayStep, delayStage]
  rw [take_succ_getD (g.identity :: xs) k g.identity
      (by simp only [List.length_cons]; omega),
    cons_getD_nthVal,
    Stream.fromList_timestamp g ((g.identity :: xs).take k), hlen,
    Stream.fromList_timestamp g xs,
    if_pos (show (k : Int) ≤ (xs.length : Int) by omega),
    Stream.getitem_fromList_le g xs k hk]
  simp only [Stream.fromList_concat]

theorem delayStep_stage_done {T : Type} [DecidableEq T] (g : AbelianGroupOperation T)
    (xs : List T) :
    delayStep (delayStage g xs (xs.length + 1)) =
      .ok (delayStage g xs (xs.length + 1), true) := by
  have hlen : ((g.identity :: xs).take (xs.length + 1)).length = xs.length + 1 := by
    simp only [List.length_take, List.length_cons]; omega
  simp only [delayStep, delayStage]
  rw [Stream.fromList_timestamp g ((g.identity :: xs).take (xs.length + 1)), hlen,
    Stream.fromList_timestamp g xs,
    if_neg (show ¬((xs.length + 1 : Nat) : Int) ≤ (xs.length : Int) by push_cast; omega)]

theorem delay_drain {T : Type} [DecidableEq T] (g : AbelianGroupOperation T)
    (xs : List T) :
    drain delayStep (xs.length + 2) (delayInit (Stream.fromList g xs)) =
      .ok { input := Stream.fromList g xs,
            output := Stream.fromList g (g.identity :: xs) } := by
  have main : ∀ j k, k + j = xs.length + 2 → k ≤ xs.length + 1 →
      drain delayStep j (delayStage g xs k) = .ok (delayStage g xs (xs.length + 1)) := by
    intro j
    induction j with
    | zero => intro k hk hk2; omega
    | succ n ih =>
        intro k hk hk2
        by_cases hdone : k = xs.length + 1
        · subst hdone
          rw [drain, delayStep_stage_done g xs]
        · have hklt : k ≤ xs.length := by omega
          rw [drain, delayStep_stage g xs k hklt]
          exact ih (k + 1) (by omega) (by omega)
  rw [delayStage_zero g xs]
  have := main (xs.length + 2) 0 (by omega) (by omega)
  rw [this]
  unfold delayStage
  rw [List.take_of_length_le (by simp)]

/-! ### Drain characterization for Integrate -/

/-- The Integrate feedback circuit state after `k` drain steps on input
`fromList g xs` (for `k ≤ |xs|`): the add output holds the first `k`
running sums, the delay output holds the first `k` values of
`identity :: sums`, both frontiers are `k`, and the input is untouched. -/
def integrateStage {T : Type} [DecidableEq T] (g : AbelianGroupOperation T)
    (xs : List T) (k : Nat) : IntegrateState T :=
  { input := Stream.fromList g xs
    out := Stream.fromList g ((sumsFrom g g.identity xs).take k)
    del := Stream.fromList g ((g.identity :: sumsFrom g g.identity xs).take k)
    fA := (k : Int)
    fB := (k : Int) }

theorem integrateStage_zero {T : Type} [DecidableEq T] (g : AbelianGroupOperation T)
    (xs : List T) : integrateInit (Stream.fromList g xs) = integrateStage g xs 0 := by
  unfold integrateInit integrateStage
  rw [Stream.fromList_groupOp]
  simp [Stream.fromList_nil]

theorem integrateStep_stage {T : Type} [DecidableEq T] (g : AbelianGroupOperation T)
    (xs : List T) (k : Nat) (hk : k < xs.length) :
    integrateStep (integrateStage g xs k) =
      .ok (integrateStage g xs (k + 1), decide ((k + 1 : Nat) = xs.length)) := by
  have hslen : (sumsFrom g g.identity xs).length = xs.length := sumsFrom_length g _ xs
  have hsumslen : ((sumsFrom g g.identity xs).take k).length = k := by
    simp only [List.length_take, hslen]; omega
  have hdellen : ((g.identity :: sumsFrom g g.identity xs).take k).length = k := by
    simp only [List.length_take, List.length_cons, hslen]; omega
  have hdellen1 : ((g.identity :: sumsFrom g g.identity xs).take (k + 1)).length = k + 1 := by
    simp only [List.length_take, List.length_cons, hslen]; omega
  have hdelay : delayStep
      { input := Stream.fromList g ((sumsFrom g g.identity xs).take k),
        output := Stream.fromList g ((g.identity :: sumsFrom g g.identity xs).take k) } =
      .ok ({ input := Stream.fromList g ((sumsFrom g g.identity xs).take k),
             output := Stream.fromList g
               ((g.identity :: sumsFrom g g.identity xs).take (k + 1)) }, false) := by
    simp only [delayStep]
    rw [take_succ_getD (g.identity :: sumsFrom g g.identity xs) k g.identity
        (by simp only [List.length_cons, hslen]; omega),
      cons_getD_nthVal,
      Stream.fromList_timestamp g ((g.identity :: sumsFrom g g.identity xs).take k),
      hdellen,
      Stream.fromList_timestamp g ((sumsFrom g g.identity xs).take k), hsumslen,
      if_pos (le_refl (k : Int)),
      Stream.getitem_fromList_le g ((sumsFrom g g.identity xs).take k) k
        (by rw [hsumslen]),
      nthVal_take_self g (sumsFrom g g.identity xs) k]
    simp only [Stream.fromList_concat]
  have hlift : lift2Step g.add
      { a := Stream.fromList g xs,
        b := Stream.fromList g ((g.identity :: sumsFrom g g.identity xs).take (k + 1)),
        out := Stream.fromList g ((sumsFrom g g.identity xs).take k),
        frontierA := (k : Int), frontierB := (k : Int) } =
      .ok ({ a := Stream.fromList g xs,
             b := Stream.fromList g ((g.identity :: sumsFrom g g.identity xs).take (k + 1)),
             out := Stream.fromList g ((sumsFrom g g.identity xs).take (k + 1)),
             frontierA := (k : Int) + 1, frontierB := (k : Int) + 1 }, false) := by
    have hc : (k : Int) + 1 = ((k + 1 : Nat) : Int) := by push_cast; omega
    simp only [lift2Step]
    rw [Stream.fromList_timestamp g xs,
      Stream.fromList_timestamp g ((g.identity :: sumsFrom g g.identity xs).take (k + 1)),
      hdellen1,
      Stream.fromList_timestamp g ((sumsFrom g g.identity xs).take k), hsumslen,
      if_neg (show ¬(max (xs.length : Int) (max ((k + 1 : Nat) : Int)
          (max (k : Int) (max (k : Int) (k : Int)))) =
        min (xs.length : Int) (min ((k + 1 : Nat) : Int)
          (min (k : Int) (min (k : Int) (k : Int))))) by push_cast; omega),
      hc,
      Stream.getitem_fromList_le g xs (k + 1) (by omega)]
    simp only
    rw [Stream.getitem_fromList_le g
        ((g.identity :: sumsFrom g g.identity xs).take (k + 1)) (k + 1)
        (by rw [hdellen1]),
      nthVal_take_self g (g.identity :: sumsFrom g g.identity xs) (k + 1),
      take_succ_getD (sumsFrom g g.identity xs) k g.identity (by omega),
      sumsFrom_getD g g.identity xs g.identity k hk]
    simp only [nthVal, cons_getD_nthVal, Stream.fromList_concat]
  unfold integrateStep
  simp only [integrateStage]
  rw [Stream.fromList_groupOp, hdelay]
  simp only
  rw [hlift]
  simp only
  have hlen1 : ((sumsFrom g g.identity xs).take (k + 1)).length = k + 1 := by
    simp only [List.length_take, hslen]; omega
  rw [Stream.fromList_timestamp g ((sumsFrom g g.identity xs).take (k + 1)), hlen1,
    Stream.fromList_timestamp g xs]
  have hdec : decide (((k + 1 : Nat) : Int) = (xs.length : Int)) =
      decide ((k + 1 : Nat) = xs.length) :=
    decide_eq_decide.mpr (by push_cast; omega)
  rw [hdec]
  have hfa : ((k + 1 : Nat) : Int) = (k : Int) + 1 := by push_cast; omega
  rw [hfa]

theorem integrate_drain {T : Type} [DecidableEq T] (g : AbelianGroupOperation T)
    (xs : List T) (hxs : 1 ≤ xs.length) :
    drain integrateStep xs.length (integrateInit (Stream.fromList g xs)) =
      .ok (integrateStage g xs xs.length) := by
  have main : ∀ j k, k + j = xs.length → k < xs.length →
      drain integrateStep j (integrateStage g xs k) =
        .ok (integrateStage g xs xs.length) := by
    intro j
    induction j with
    | zero => intro k h1 h2; omega
    | succ n ih =>
        intro k h1 h2
        by_cases hdone : k + 1 = xs.length
        · rw [drain, integrateStep_stage g xs k h2, hdone]
          simp
        · rw [drain, integrateStep_stage g xs k h2, decide_eq_false hdone]
          exact ih (k + 1) (by omega) (by omega)
  rw [integrateStage_zero]
  exact main xs.length 0 (by omega) (by omega)

/-- One step of Delay on empty input and output: the constructor-time
identity at timestamp 0 is copied over. -/
theorem delayStep_nil {T : Type} [DecidableEq T] (g : AbelianGroupOperation T) :
    delayStep { input := Stream.fromList g ([] : List T),
                output := Stream.fromList g ([] : List T) } =
      .ok ({ input := Stream.fromList g ([] : List T),
             output := Stream.fromList g [g.identity] }, false) := by
  simp only [delayStep]
  rw [Stream.fromList_timestamp g ([] : List T)]
  simp only [List.length_nil]
  rw [if_pos (le_refl (((0 : Nat) : Int))),
    Stream.getitem_fromList_le g ([] : List T) 0 (by simp)]
  simp only [nthVal, Stream.fromList_send_nil]

/-- One step of a lifted group add whose first input is a fresh (empty)
stream and whose second already holds one (identity) value: the read at
timestamp 1 lazily extends the empty input. -/
theorem lift2AddStep_nil {T : Type} [DecidableEq T] {g : AbelianGroupOperation T}
    (hG : IsAbelianGroup g) :
    lift2Step g.add
      { a := Stream.fromList g ([] : List T),
        b := Stream.fromList g [g.identity],
        out := Stream.fromList g ([] : List T),
        frontierA := (0 : Int), frontierB := (0 : Int) } =
      .ok ({ a := Stream.fromList g [g.identity],
             b := Stream.fromList g [g.identity],
             out := Stream.fromList g [g.identity],
             frontierA := (0 : Int) + 1, frontierB := (0 : Int) + 1 }, false) := by
  simp only [lift2Step]
  rw [Stream.fromList_timestamp g ([] : List T),
    Stream.fromList_timestamp g [g.identity]]
  rw [if_neg (by simp)]
  rw [show ((0 : Int) + 1) = ((1 : Nat) : Int) by omega,
    Stream.getitem_fromList_gt g ([] : List T) 1 (by simp)]
  simp only
  rw [Stream.getitem_fromList_le g [g.identity] 1 (by simp)]
  simp only [nthVal, List.length_nil, Nat.sub_zero, List.nil_append,
    List.replicate, List.getD_cons_zero]
  rw [hG.add_identity g.identity]
  simp only [Stream.fromList_send_nil]

/-- One drained step of Integrate on an empty input (cursor 0): the feedback
read at timestamp 1 lazily extends the input, and everything settles at
cursor 1 with all-identity contents. -/
theorem integrate_drain_nil {T : Type} [DecidableEq T] {g : AbelianGroupOperation T}
    (hG : IsAbelianGroup g) :
    drain integrateStep 1 (integrateInit (Stream.fromList g ([] : List T))) =
      .ok { input := Stream.fromList g [g.identity],
            out := Stream.fromList g [g.identity],
            del := Stream.fromList g [g.identity], fA := 1, fB := 1 } := by
  have hdelay := delayStep_nil g
  have hlift := lift2AddStep_nil hG
  rw [drain]
  unfold integrateStep
  simp only [integrateInit]
  rw [Stream.fromList_groupOp, ← Stream.fromList_nil]
  simp only [hdelay, hlift]
  simp

/-! ### Drain characterization for Differentiate -/

/-- The Differentiate pipeline state after `k` drain steps on input
`fromList g xs` (for `k ≤ |xs|`): the delay output holds the first `k`
values of `identity :: xs`, the negate output their negations, the add
output the first `k` consecutive differences, and all frontiers are `k`. -/
def differentiateStage {T : Type} [DecidableEq T] (g : AbelianGroupOperation T)
    (xs : List T) (k : Nat) : DifferentiateState T :=
  { input := Stream.fromList g xs
    del := Stream.fromList g ((g.identity :: xs).take k)
    neg := Stream.fromList g (((g.identity :: xs).take k).map g.neg)
    out := Stream.fromList g ((diffsFrom g g.identity xs).take k)
    fNeg := (k : Int)
    fA := (k : Int)
    fB := (k : Int) }

theorem differentiateStage_zero {T : Type} [DecidableEq T]
    (g : AbelianGroupOperation T) (xs : List T) :
    differentiateInit (Stream.fromList g xs) = differentiateStage g xs 0 := by
  unfold differentiateInit differentiateStage
  rw [Stream.fromList_groupOp]
  simp [Stream.fromList_nil]

theorem differentiateStep_stage {T : Type} [DecidableEq T]
    (g : AbelianGroupOperation T) (xs : List T) (k : Nat) (hk : k < xs.length) :
    differentiateStep (differentiateStage g xs k) =
      .ok (differentiateStage g xs (k + 1), decide ((k + 1 : Nat) = xs.length)) := by
  have hdlen : (xs.length : Int) + 1 = ((xs.length + 1 : Nat) : Int) := by push_cast; omega
  have hdellen1 : ((g.identity :: xs).take (k + 1)).length = k + 1 := by
    simp only [List.length_take, List.length_cons]; omega
  have hneglen : (((g.identity :: xs).take k).map g.neg).length = k := by
    simp only [List.length_map, List.length_take, List.length_cons]; omega
  have hneglen1 : (((g.identity :: xs).take (k + 1)).map g.neg).length = k + 1 := by
    simp only [List.length_map, hdellen1]
  have houtlen : ((diffsFrom g g.identity xs).take k).length = k := by
    simp only [List.length_take, diffsFrom_length]; omega
  have hc : (k : Int) + 1 = ((k + 1 : Nat) : Int) := by push_cast; omega
  have hdelay := delayStep_stage g xs k (le_of_lt hk)
  simp only [delayStage] at hdelay
  have hneg : lift1Step g.neg
      { input := Stream.fromList g ((g.identity :: xs).take (k + 1)),
        output := Stream.fromList g (((g.identity :: xs).take k).map g.neg),
        frontier := (k : Int) } =
      .ok ({ input := Stream.fromList g ((g.identity :: xs).take (k + 1)),
             output := Stream.fromList g (((g.identity :: xs).take (k + 1)).map g.neg),
             frontier := (k : Int) + 1 }, false) := by
    simp only [lift1Step]
    rw [Stream.fromList_timestamp g ((g.identity :: xs).take (k + 1)), hdellen1,
      Stream.fromList_timestamp g (((g.identity :: xs).take k).map g.neg), hneglen,
      if_neg (show ¬(max ((k + 1 : Nat) : Int) (max (k : Int) (k : Int)) =
        min ((k + 1 : Nat) : Int) (min (k : Int) (k : Int))) by push_cast; omega),
      hc,
      Stream.getitem_fromList_le g ((g.identity :: xs).take (k + 1)) (k + 1)
        (by rw [hdellen1]),
      nthVal_take_self g (g.identity :: xs) (k + 1)]
    simp only
    rw [take_succ_getD (g.identity :: xs) k g.identity
        (by simp only [List.length_cons]; omega)]
    simp only [nthVal, List.map_append, List.map_cons, List.map_nil,
      Stream.fromList_concat]
  have hlift : lift2Step g.add
      { a := Stream.fromList g xs,
        b := Stream.fromList g (((g.identity :: xs).take (k + 1)).map g.neg),
        out := Stream.fromList g ((diffsFrom g g.identity xs).take k),
        frontierA := (k : Int), frontierB := (k : Int) } =
      .ok ({ a := Stream.fromList g xs,
             b := Stream.fromList g (((g.identity :: xs).take (k + 1)).map g.neg),
             out := Stream.fromList g ((diffsFrom g g.identity xs).take (k + 1)),
             frontierA := (k : Int) + 1, frontierB := (k : Int) + 1 }, false) := by
    simp only [lift2Step]
    rw [Stream.fromList_timestamp g xs,
      Stream.fromList_timestamp g (((g.identity :: xs).take (k + 1)).map g.neg),
      hneglen1,
      Stream.fromList_timestamp g ((diffsFrom g g.identity xs).take k), houtlen,
      if_neg (show ¬(max (xs.length : Int) (max ((k + 1 : Nat) : Int)
          (max (k : Int) (max (k : Int) (k : Int)))) =
        min (xs.length : Int) (min ((k + 1 : Nat) : Int)
          (min (k : Int) (min (k : Int) (k : Int))))) by push_cast; omega),
      hc,
      Stream.getitem_fromList_le g xs (k + 1) (by omega)]
    simp only
    rw [Stream.getitem_fromList_le g (((g.identity :: xs).take (k + 1)).map g.neg)
        (k + 1) (by rw [hneglen1]),
      take_succ_getD (diffsFrom g g.identity xs) k g.identity
        (by rw [diffsFrom_length]; omega),
      diffsFrom_getD g g.identity xs g.identity k hk]
    simp only [nthVal]
    rw [getD_map_of_lt g.neg ((g.identity :: xs).take (k + 1)) k g.identity g.identity
        (by rw [hdellen1]; omega),
      getD_take (g.identity :: xs) (k + 1) k g.identity (by omega)]
    simp only [Stream.fromList_concat]
  unfold differentiateStep
  simp only [differentiateStage]
  rw [hdelay]
  simp only
  rw [Stream.fromList_groupOp, hneg]
  simp only
  rw [Stream.fromList_groupOp, hlift]
  simp only
  have hlen1 : ((diffsFrom g g.identity xs).take (k + 1)).length = k + 1 := by
    simp only [List.length_take, diffsFrom_length]; omega
  rw [Stream.fromList_timestamp g ((diffsFrom g g.identity xs).take (k + 1)), hlen1,
    Stream.fromList_timestamp g xs]
  have hdec : decide (((k + 1 : Nat) : Int) = (xs.length : Int)) =
      decide ((k + 1 : Nat) = xs.length) :=
    decide_eq_decide.mpr (by push_cast; omega)
  rw [hdec, hc]

theorem differentiate_drain {T : Type} [DecidableEq T] (g : AbelianGroupOperation T)
    (xs : List T) (hxs : 1 ≤ xs.length) :
    drain differentiateStep xs.length (differentiateInit (Stream.fromList g xs)) =
      .ok (differentiateStage g xs xs.length) := by
  have main : ∀ j k, k + j = xs.length → k < xs.length →
      drain differentiateStep j (differentiateStage g xs k) =
        .ok (differentiateStage g xs xs.length) := by
    intro j
    induction j with
    | zero => intro k h1 h2; omega
    | succ n ih =>
        intro k h1 h2
        by_cases hdone : k + 1 = xs.length
        · rw [drain, differentiateStep_stage g xs k h2, hdone]
          simp
        · rw [drain, differentiateStep_stage g xs k h2, decide_eq_false hdone]
          exact ih (k + 1) (by omega) (by omega)
  rw [differentiateStage_zero]
  exact main xs.length 0 (by omega) (by omega)

/-- One drained step of Differentiate on an empty input (cursor 0). -/
theorem differentiate_drain_nil {T : Type} [DecidableEq T]
    {g : AbelianGroupOperation T} (hG : IsAbelianGroup g) :
    drain differentiateStep 1 (differentiateInit (Stream.fromList g ([] : List T))) =
      .ok { input := Stream.fromList g [g.identity],
            del := Stream.fromList g [g.identity],
            neg := Stream.fromList g [g.identity],
            out := Stream.fromList g [g.identity],
            fNeg := 1, fA := 1, fB := 1 } := by
  have hneg : lift1Step g.neg
      { input := Stream.fromList g [g.identity],
        output := Stream.fromList g ([] : List T),
        frontier := (0 : Int) } =
      .ok ({ input := Stream.fromList g [g.identity],
             output := Stream.fromList g [g.identity],
             frontier := (0 : Int) + 1 }, false) := by
    simp only [lift1Step]
    rw [Stream.fromList_timestamp g [g.identity],
      Stream.fromList_timestamp g ([] : List T),
      if_neg (by simp),
      show ((0 : Int) + 1) = ((1 : Nat) : Int) by omega,
      Stream.getitem_fromList_le g [g.identity] 1 (by simp)]
    simp only [nthVal, List.getD_cons_zero]
    rw [hG.neg_identity]
    simp only [Stream.fromList_send_nil]
  rw [drain]
  unfold differentiateStep
  simp only [differentiateInit]
  rw [Stream.fromList_groupOp, ← Stream.fromList_nil]
  simp only [delayStep_nil g]
  rw [Stream.fromList_groupOp, hneg]
  simp only
  rw [Stream.fromList_groupOp, lift2AddStep_nil hG]
  simp

/-- `Integrate(Differentiate(s))`: drain a `Differentiate` over `s` to
fixpoint, then drain an `Integrate` over its output stream to fixpoint, and
return the final output. -/
def integrateOfDifferentiate {T : Type} [DecidableEq T] (fuel : Nat) (s : Stream T) :
    Except String (Stream T) :=
  match drain differentiateStep fuel (differentiateInit s) with
  | .error e => .error e
  | .ok st1 =>
      match drain integrateStep fuel (integrateInit st1.out) with
      | .error e => .error e
      | .ok st2 => .ok st2.out

/-- `Differentiate(Integrate(s))`: drain an `Integrate` over `s` to
fixpoint, then drain a `Differentiate` over its output stream to fixpoint,
and return the final output. -/
def differentiateOfIntegrate {T : Type} [DecidableEq T] (fuel : Nat) (s : Stream T) :
    Except String (Stream T) :=
  match drain integrateStep fuel (integrateInit s) with
  | .error e => .error e
  | .ok st1 =>
      match drain differentiateStep fuel (differentiateInit st1.out) with
      | .error e => .error e
      | .ok st2 => .ok st2.out

/-! ### Drain characterization for `StreamAddition.add` -/

/-- Invariant of the `LiftedGroupAdd` drain inside `StreamAddition.add`:
with both frontiers, the output cursor and the step count at `k`, each step
reads both operands at `k + 1` (extending whichever is shorter), so after
draining both operands sit at `max` of the original cursors; only their
cursors change. -/
theorem lift2Add_drain_aux {T : Type} [DecidableEq T] (a b : Stream T) {da db : T}
    (hdca : a.defaultChanges = [(0, da)])
    (hkeysa : ∀ kv ∈ a.inner, kv.1 ≤ a.timestamp) (htsa : 0 ≤ a.timestamp)
    (hdcb : b.defaultChanges = [(0, db)])
    (hkeysb : ∀ kv ∈ b.inner, kv.1 ≤ b.timestamp) (htsb : 0 ≤ b.timestamp) :
    ∀ (j k : Nat), (k : Int) + (j : Int) = max a.timestamp b.timestamp →
    ∀ o : Stream T, o.timestamp = (k : Int) →
    ∃ o', drain (lift2Step a.groupOp.add) (j + 1)
        { a := { a with timestamp := max a.timestamp (k : Int) },
          b := { b with timestamp := max b.timestamp (k : Int) },
          out := o, frontierA := (k : Int), frontierB := (k : Int) } =
      .ok { a := { a with timestamp := max a.timestamp b.timestamp },
            b := { b with timestamp := max a.timestamp b.timestamp },
            out := o', frontierA := max a.timestamp b.timestamp,
            frontierB := max a.timestamp b.timestamp } := by
  intro j
  induction j with
  | zero =>
      intro k hk o ho
      refine ⟨o, ?_⟩
      rw [drain]
      simp only [lift2Step]
      rw [ho, if_pos (by omega)]
      have h1 : max a.timestamp (k : Int) = max a.timestamp b.timestamp := by omega
      have h2 : max b.timestamp (k : Int) = max a.timestamp b.timestamp := by omega
      have h3 : (k : Int) = max a.timestamp b.timestamp := by omega
      simp only [h1, h2, h3]
      have h4 : a.timestamp ⊔ (a.timestamp ⊔ b.timestamp) = a.timestamp ⊔ b.timestamp := by
        omega
      have h5 : b.timestamp ⊔ (a.timestamp ⊔ b.timestamp) = a.timestamp ⊔ b.timestamp := by
        omega
      rw [h4, h5]
  | succ n ih =>
      intro k hk o ho
      have hkM : (k : Int) < max a.timestamp b.timestamp := by
        push_cast at hk
        omega
      obtain ⟨va, hva⟩ := Stream.getitem_ok
        (s := { a with timestamp := max a.timestamp (k : Int) })
        hdca (fun kv hkv => le_trans (hkeysa kv hkv) (le_max_left _ _))
        (le_trans htsa (le_max_left _ _)) (t := (k : Int) + 1) (by omega)
      obtain ⟨vb, hvb⟩ := Stream.getitem_ok
        (s := { b with timestamp := max b.timestamp (k : Int) })
        hdcb (fun kv hkv => le_trans (hkeysb kv hkv) (le_max_left _ _))
        (le_trans htsb (le_max_left _ _)) (t := (k : Int) + 1) (by omega)
      have hA : max (max a.timestamp (k : Int)) ((k : Int) + 1) =
          max a.timestamp ((k : Int) + 1) := by omega
      have hB : max (max b.timestamp (k : Int)) ((k : Int) + 1) =
          max b.timestamp ((k : Int) + 1) := by omega
      dsimp only at hva hvb
      rw [hA] at hva
      rw [hB] at hvb
      have hstep : lift2Step a.groupOp.add
          { a := { a with timestamp := max a.timestamp (k : Int) },
            b := { b with timestamp := max b.timestamp (k : Int) },
            out := o, frontierA := (k : Int), frontierB := (k : Int) } =
          .ok ({ a := { a with timestamp := max a.timestamp ((k : Int) + 1) },
                 b := { b with timestamp := max b.timestamp ((k : Int) + 1) },
                 out := o.send (a.groupOp.add va vb),
                 frontierA := (k : Int) + 1, frontierB := (k : Int) + 1 }, false) := by
        simp only [lift2Step]
        rw [ho, if_neg (by omega), hva]
        dsimp only
        rw [hvb]
      have hcast : ((k : Int) + 1) = ((k + 1 : Nat) : Int) := by push_cast; omega
      have ho' : (o.send (a.groupOp.add va vb)).timestamp = ((k + 1 : Nat) : Int) := by
        rw [Stream.send_timestamp, ho, hcast]
      obtain ⟨o', hdrain⟩ := ih (k + 1)
        (by push_cast at hk ⊢; omega) (o.send (a.groupOp.add va vb)) ho'
      refine ⟨o', ?_⟩
      rw [drain, hstep, hcast]
      exact hdrain

/-! ### Claim theorems -/

/-- C6: per-step behaviour of `Delay.step` — while the output cursor is ≤
the input cursor it appends the input value recorded at the output's current
cursor position and returns false, and once the output cursor exceeds the
input cursor it returns true doing nothing — and the drained law: delaying
`fromList g xs` reaches fixpoint in at most `|xs| + 2` steps with output
`fromList g (identity :: xs)`, whose value at 0 is the group identity and
whose value at each `1 ≤ t ≤` cursor equals the input's value at `t - 1`. -/
theorem claim_C6_delay {T : Type} [DecidableEq T] (g : AbelianGroupOperation T)
    (xs : List T) :
    (∀ st : DelayState T,
      (st.output.timestamp ≤ st.input.timestamp →
        ∀ v input', st.input.getitem st.output.timestamp = (.ok v, input') →
          delayStep st = .ok ({ input := input', output := st.output.send v }, false)) ∧
      (st.input.timestamp < st.output.timestamp → delayStep st = .ok (st, true))) ∧
    drain delayStep (xs.length + 2) (delayInit (Stream.fromList g xs)) =
      .ok { input := Stream.fromList g xs,
            output := Stream.fromList g (g.identity :: xs) } ∧
    (Stream.fromList g (g.identity :: xs)).readAt 0 = .ok g.identity ∧
    (∀ t : Nat, 1 ≤ t → t ≤ xs.length + 1 →
      (Stream.fromList g (g.identity :: xs)).readAt (t : Int) =
        (Stream.fromList g xs).readAt ((t : Int) - 1)) := by
  refine ⟨?_, delay_drain g xs, ?_, ?_⟩
  · intro st
    constructor
    · intro hle v input' hread
      unfold delayStep
      rw [if_pos hle]
      simp only [hread]
    · intro hgt
      unfold delayStep
      rw [if_neg (by omega)]
  · have h0 := Stream.readAt_fromList g (g.identity :: xs) 0 (by simp)
    simpa using h0
  · intro t h1 h2
    have hcast : ((t : Int) - 1) = ((t - 1 : Nat) : Int) := by omega
    rw [hcast,
      Stream.readAt_fromList g (g.identity :: xs) t
        (by simp only [List.length_cons]; omega),
      Stream.readAt_fromList g xs (t - 1) (by omega)]
    cases t with
    | zero => omega
    | succ n =>
        simp only [Nat.succ_sub_one]
        show Except.ok ((g.identity :: xs).getD n g.identity) = _
        rw [cons_getD_nthVal]

theorem claim_C6_witness :
    drain delayStep 5 (delayInit (Stream.fromList intGroup [3, 5, 2])) =
      .ok { input := Stream.fromList intGroup [3, 5, 2],
            output := Stream.fromList intGroup [0, 3, 5, 2] } ∧
    (Stream.fromList intGroup [0, 3, 5, 2]).readAt 2 =
      (Stream.fromList intGroup [3, 5, 2]).readAt 1 := by
  constructor
  · exact (claim_C6_delay intGroup [3, 5, 2]).2.1
  · exact (claim_C6_delay intGroup [3, 5, 2]).2.2.2 2 (by decide) (by decide)

/-- `Integrate.step` reports completion exactly when the output cursor has
caught up with the input cursor (both taken after the sub-steps ran). -/
theorem integrateStep_completion {T : Type} [DecidableEq T] :
    ∀ (st st' : IntegrateState T) (b : Bool), integrateStep st = .ok (st', b) →
      b = decide (st'.out.timestamp = st'.input.timestamp) := by
  intro st st' b h
  unfold integrateStep at h
  split at h
  · exact absurd h (by simp)
  · split at h
    · exact absurd h (by simp)
    · rw [Except.ok.injEq, Prod.mk.injEq] at h
      obtain ⟨hst, hb⟩ := h
      subst hst
      subst hb
      rfl

/-- C4: `Integrate.step` completes (returns true) exactly when output cursor
equals input cursor; draining the operator on `fromList g xs` terminates
within `max |xs| 1` steps with an output whose value at every `t ≤ |xs|` is
the group sum `Σ_{k ≤ t} input[k]`; and on the spec's integer scenario
(3, 5, 2 sent at timestamps 1, 2, 3) the drained output lists as
[0, 3, 8, 10]. -/
theorem claim_C4_integrate {T : Type} [DecidableEq T] {g : AbelianGroupOperation T}
    (hG : IsAbelianGroup g) (xs : List T) :
    (∀ (st st' : IntegrateState T) (b : Bool), integrateStep st = .ok (st', b) →
      b = decide (st'.out.timestamp = st'.input.timestamp)) ∧
    (∃ stF, drain integrateStep (max xs.length 1)
        (integrateInit (Stream.fromList g xs)) = .ok stF ∧
      ∀ t : Nat, t ≤ xs.length → stF.out.readAt (t : Int) = .ok (sumTo g xs t)) ∧
    (drain integrateStep 3 (integrateInit (Stream.fromList intGroup [3, 5, 2]))).map
      (fun st => (st.out.toList).1) = .ok (.ok [0, 3, 8, 10]) := by
  refine ⟨integrateStep_completion, ?_, by rfl⟩
  by_cases hxs : 1 ≤ xs.length
  · refine ⟨integrateStage g xs xs.length, ?_, ?_⟩
    · rw [max_eq_left hxs]
      exact integrate_drain g xs hxs
    · intro t ht
      simp only [integrateStage]
      rw [List.take_of_length_le (by rw [sumsFrom_length]),
        Stream.readAt_fromList g (sumsFrom g g.identity xs) t
          (by rw [sumsFrom_length]; omega),
        nthVal_sums_eq_sumTo g xs t ht]
  · have hnil : xs = [] := by
      cases xs with
      | nil => rfl
      | cons y ys => simp at hxs
    subst hnil
    refine ⟨{ input := Stream.fromList g [g.identity],
              out := Stream.fromList g [g.identity],
              del := Stream.fromList g [g.identity], fA := 1, fB := 1 }, ?_, ?_⟩
    · show drain integrateStep 1 _ = _
      exact integrate_drain_nil hG
    · intro t ht
      have ht0 : t = 0 := by simpa using ht
      subst ht0
      rw [show ((0 : Nat) : Int) = (((0 : Nat)) : Int) from rfl,
        Stream.readAt_fromList g [g.identity] 0 (by simp)]
      rfl

theorem claim_C4_witness :
    (∃ stF, drain integrateStep 3
        (integrateInit (Stream.fromList intGroup [3, 5, 2])) = .ok stF ∧
      ∀ t : Nat, t ≤ 3 → stF.out.readAt (t : Int) =
        .ok (sumTo intGroup [3, 5, 2] t)) ∧
    (drain integrateStep 3 (integrateInit (Stream.fromList intGroup [3, 5, 2]))).map
      (fun st => (st.out.toList).1) = .ok (.ok [0, 3, 8, 10]) :=
  ⟨(claim_C4_integrate intGroup_laws [3, 5, 2]).2.1,
   (claim_C4_integrate intGroup_laws [3, 5, 2]).2.2⟩

/-- `Differentiate.step` steps the delay, negate and add sub-operators once
each, in that order (visible in the definition), and reports completion
exactly when the output cursor has caught up with the input cursor (both
taken after the sub-steps ran). -/
theorem differentiateStep_completion {T : Type} [DecidableEq T] :
    ∀ (st st' : DifferentiateState T) (b : Bool), differentiateStep st = .ok (st', b) →
      b = decide (st'.out.timestamp = st'.input.timestamp) := by
  intro st st' b h
  unfold differentiateStep at h
  split at h
  · exact absurd h (by simp)
  · split at h
    · exact absurd h (by simp)
    · split at h
      · exact absurd h (by simp)
      · rw [Except.ok.injEq, Prod.mk.injEq] at h
        obtain ⟨hst, hb⟩ := h
        subst hst
        subst hb
        rfl

/-- C5: `Differentiate.step` advances its three sub-operators once per call
in pipeline order and completes exactly when output cursor equals input
cursor; draining on `fromList g xs` terminates within `max |xs| 1` steps
with an output valued the implicit identity at 0 and
`input[t] - input[t-1]` (i.e. `add(input[t], neg(input[t-1]))`) at every
`1 ≤ t ≤ |xs|`; and differentiating the integer stream [0, 3, 8, 10]
yields [0, 3, 5, 2]. -/
theorem claim_C5_differentiate {T : Type} [DecidableEq T] {g : AbelianGroupOperation T}
    (hG : IsAbelianGroup g) (xs : List T) :
    (∀ (st st' : DifferentiateState T) (b : Bool), differentiateStep st = .ok (st', b) →
      b = decide (st'.out.timestamp = st'.input.timestamp)) ∧
    (∃ stF, drain differentiateStep (max xs.length 1)
        (differentiateInit (Stream.fromList g xs)) = .ok stF ∧
      stF.out.readAt 0 = .ok g.identity ∧
      ∀ t : Nat, 1 ≤ t → t ≤ xs.length →
        stF.out.readAt (t : Int) =
          .ok (g.add (nthVal g xs t) (g.neg (nthVal g xs (t - 1))))) ∧
    (drain differentiateStep 3
        (differentiateInit (Stream.fromList intGroup [3, 8, 10]))).map
      (fun st => (st.out.toList).1) = .ok (.ok [0, 3, 5, 2]) := by
  refine ⟨differentiateStep_completion, ?_, by rfl⟩
  by_cases hxs : 1 ≤ xs.length
  · refine ⟨differentiateStage g xs xs.length, ?_, ?_, ?_⟩
    · rw [max_eq_left hxs]
      exact differentiate_drain g xs hxs
    · simp only [differentiateStage]
      rw [List.take_of_length_le (by rw [diffsFrom_length])]
      have h0 := Stream.readAt_fromList g (diffsFrom g g.identity xs) 0
        (by rw [diffsFrom_length]; omega)
      simpa using h0
    · intro t h1 h2
      simp only [differentiateStage]
      rw [List.take_of_length_le (by rw [diffsFrom_length]),
        Stream.readAt_fromList g (diffsFrom g g.identity xs) t
          (by rw [diffsFrom_length]; omega)]
      cases t with
      | zero => omega
      | succ n =>
          simp only [nthVal, Nat.succ_sub_one]
          rw [diffsFrom_getD g g.identity xs g.identity n (by omega),
            cons_getD_nthVal]
          rfl
  · have hnil : xs = [] := by
      cases xs with
      | nil => rfl
      | cons y ys => simp at hxs
    subst hnil
    refine ⟨{ input := Stream.fromList g [g.identity],
              del := Stream.fromList g [g.identity],
              neg := Stream.fromList g [g.identity],
              out := Stream.fromList g [g.identity],
              fNeg := 1, fA := 1, fB := 1 }, ?_, ?_, ?_⟩
    · show drain differentiateStep 1 _ = _
      exact differentiate_drain_nil hG
    · have h0 := Stream.readAt_fromList g [g.identity] 0 (by simp)
      simpa using h0
    · intro t h1 h2
      have : t = 0 := by simpa using h2
      omega

theorem claim_C5_witness :
    (∃ stF, drain differentiateStep 3
        (differentiateInit (Stream.fromList intGroup [3, 8, 10])) = .ok stF ∧
      stF.out.readAt 0 = .ok 0 ∧
      ∀ t : Nat, 1 ≤ t → t ≤ 3 →
        stF.out.readAt (t : Int) =
          .ok (intGroup.add (nthVal intGroup [3, 8, 10] t)
            (intGroup.neg (nthVal intGroup [3, 8, 10] (t - 1))))) ∧
    (drain differentiateStep 3
        (differentiateInit (Stream.fromList intGroup [3, 8, 10]))).map
      (fun st => (st.out.toList).1) = .ok (.ok [0, 3, 5, 2]) :=
  ⟨(claim_C5_differentiate intGroup_laws [3, 8, 10]).2.1,
   (claim_C5_differentiate intGroup_laws [3, 8, 10]).2.2⟩

/-- C3: for every stream `fromList g xs` over a lawful abelian group,
draining `Differentiate` then `Integrate` yields a stream equal (under the
code's stream equality) to the original, and likewise draining `Integrate`
then `Differentiate`; the implicit identity at timestamp 0 telescopes away,
and on an originally-empty stream the two sides are equal as identity
streams despite differing cursors. -/
theorem claim_C3_roundtrip {T : Type} [DecidableEq T] {g : AbelianGroupOperation T}
    (hG : IsAbelianGroup g) (xs : List T) :
    (integrateOfDifferentiate (max xs.length 1) (Stream.fromList g xs)).map
      (fun r => r.beq (Stream.fromList g xs)) = .ok true ∧
    (differentiateOfIntegrate (max xs.length 1) (Stream.fromList g xs)).map
      (fun r => r.beq (Stream.fromList g xs)) = .ok true := by
  have hnil_id : (Stream.fromList g ([] : List T)).identity = true := by
    rw [Stream.fromList_nil, Stream.new_eq]
  have hone_id : (Stream.fromList g [g.identity]).identity = true :=
    Stream.fromList_identity_of_all g [g.identity] (by simp)
  constructor
  · by_cases hxs : 1 ≤ xs.length
    · unfold integrateOfDifferentiate
      rw [max_eq_left hxs]
      simp only [differentiate_drain g xs hxs, differentiateStage]
      rw [List.take_of_length_le (by rw [diffsFrom_length]),
        show xs.length = (diffsFrom g g.identity xs).length from
          (diffsFrom_length g g.identity xs).symm]
      simp only [integrate_drain g (diffsFrom g g.identity xs)
        (by rw [diffsFrom_length]; omega), integrateStage]
      rw [List.take_of_length_le (by rw [sumsFrom_length]),
        sumsFrom_diffsFrom hG xs g.identity]
      simp [Except.map, Stream.beq_self]
    · have hn : xs = [] := by
        cases xs with
        | nil => rfl
        | cons y ys => simp at hxs
      subst hn
      unfold integrateOfDifferentiate
      rw [show max ([] : List T).length 1 = 1 by simp]
      simp only [differentiate_drain_nil hG]
      rw [show (1 : Nat) = [g.identity].length from rfl]
      simp only [integrate_drain g [g.identity] (by simp), integrateStage]
      have hsum1 : sumsFrom g g.identity [g.identity] = [g.identity] := by
        simp only [sumsFrom]
        rw [hG.add_identity]
      rw [hsum1]
      simp only [List.length_singleton, List.take_succ_cons, List.take_zero]
      simp [Except.map, Stream.beq_of_identity hone_id hnil_id]
  · by_cases hxs : 1 ≤ xs.length
    · unfold differentiateOfIntegrate
      rw [max_eq_left hxs]
      simp only [integrate_drain g xs hxs, integrateStage]
      rw [List.take_of_length_le (by rw [sumsFrom_length]),
        show xs.length = (sumsFrom g g.identity xs).length from
          (sumsFrom_length g g.identity xs).symm]
      simp only [differentiate_drain g (sumsFrom g g.identity xs)
        (by rw [sumsFrom_length]; omega), differentiateStage]
      rw [List.take_of_length_le (by rw [diffsFrom_length]),
        diffsFrom_sumsFrom hG xs g.identity]
      simp [Except.map, Stream.beq_self]
    · have hn : xs = [] := by
        cases xs with
        | nil => rfl
        | cons y ys => simp at hxs
      subst hn
      unfold differentiateOfIntegrate
      rw [show max ([] : List T).length 1 = 1 by simp]
      simp only [integrate_drain_nil hG]
      rw [show (1 : Nat) = [g.identity].length from rfl]
      simp only [differentiate_drain g [g.identity] (by simp), differentiateStage]
      have hdiff1 : diffsFrom g g.identity [g.identity] = [g.identity] := by
        simp only [diffsFrom]
        rw [hG.add_inverse]
      rw [hdiff1]
      simp only [List.length_singleton, List.take_succ_cons, List.take_zero]
      simp [Except.map, Stream.beq_of_identity hone_id hnil_id]

theorem claim_C3_witness :
    (integrateOfDifferentiate 3 (Stream.fromList intGroup [3, 5, 2])).map
      (fun r => r.beq (Stream.fromList intGroup [3, 5, 2])) = .ok true ∧
    (differentiateOfIntegrate 3 (Stream.fromList intGroup [3, 5, 2])).map
      (fun r => r.beq (Stream.fromList intGroup [3, 5, 2])) = .ok true :=
  claim_C3_roundtrip intGroup_laws [3, 5, 2]

/-- C10: `StreamAddition.add(a, b)` has a write side effect on its operands:
the fixpoint drain reads both inputs at each successive frontier, lazily
extending the shorter one, so after the call both operands' cursors equal
the max of the original cursors while their explicit-value mappings,
identity flags, defaults, default-change histories and group ops are
untouched (the record updates in the conclusion change only `timestamp`). -/
theorem claim_C10_stream_addition_frame {T : Type} [DecidableEq T] (a b : Stream T)
    {da db : T}
    (hdca : a.defaultChanges = [(0, da)])
    (hkeysa : ∀ kv ∈ a.inner, kv.1 ≤ a.timestamp) (htsa : 0 ≤ a.timestamp)
    (hdcb : b.defaultChanges = [(0, db)])
    (hkeysb : ∀ kv ∈ b.inner, kv.1 ≤ b.timestamp) (htsb : 0 ≤ b.timestamp) :
    ∃ out, streamAdditionAdd ((max a.timestamp b.timestamp).toNat + 1) a b =
      .ok (out, { a with timestamp := max a.timestamp b.timestamp },
                 { b with timestamp := max a.timestamp b.timestamp }) := by
  obtain ⟨o', hdrain⟩ := lift2Add_drain_aux a b hdca hkeysa htsa hdcb hkeysb htsb
    (max a.timestamp b.timestamp).toNat 0 (by push_cast; omega)
    (Stream.new a.groupOp) (by simp [Stream.new_eq])
  simp only [Nat.cast_zero] at hdrain
  have ha0 : ({ a with timestamp := max a.timestamp (0 : Int) } : Stream T) = a := by
    have h : max a.timestamp (0 : Int) = a.timestamp := by omega
    rw [h]
  have hb0 : ({ b with timestamp := max b.timestamp (0 : Int) } : Stream T) = b := by
    have h : max b.timestamp (0 : Int) = b.timestamp := by omega
    rw [h]
  rw [ha0, hb0] at hdrain
  exact ⟨_, by unfold streamAdditionAdd; rw [hdrain]⟩

theorem claim_C10_witness :
    ∃ out, streamAdditionAdd 2
        (Stream.fromList intGroup [1]) (Stream.fromList intGroup []) =
      .ok (out,
        { Stream.fromList intGroup [1] with timestamp := 1 },
        { Stream.fromList intGroup [] with timestamp := 1 }) :=
  claim_C10_stream_addition_frame
    (Stream.fromList intGroup [1]) (Stream.fromList intGroup [])
    (by rfl) (by decide) (by decide) (by rfl) (by decide) (by decide)

/-- C9: reading a stream at any negative timestamp fails immediately with the
invalid-argument error, and the stream state (cursor, explicit-value mapping,
default, identity flag, default-change history) is returned entirely
unchanged — the timestamp is never clamped. -/
theorem claim_C9_negative_timestamp {T : Type} [DecidableEq T]
    (s : Stream T) (t : Int) (h : t < 0) :
    s.getitem t = (.error "Timestamp cannot be negative", s) := by
  unfold Stream.getitem
  rw [if_pos h]

theorem claim_C9_witness :
    (Stream.new intGroup).getitem (-1) =
      (.error "Timestamp cannot be negative", Stream.new intGroup) :=
  claim_C9_negative_timestamp (Stream.new intGroup) (-1) (by decide)

/-- C8: on a well-formed stream (default-change history `[(0, d)]`, all
explicit keys within the cursor, cursor ≥ 0), reading at any timestamp `t`
strictly beyond the cursor advances the cursor to exactly `t` (by repeatedly
sending the current default, which stores nothing) and returns the default
`d` in force at `t`; all other fields are unchanged. -/
theorem claim_C8_read_past_cursor {T : Type} [DecidableEq T]
    {s : Stream T} {d : T} (t : Int)
    (hdc : s.defaultChanges = [(0, d)])
    (hkeys : ∀ kv ∈ s.inner, kv.1 ≤ s.timestamp)
    (hts : 0 ≤ s.timestamp) (ht : s.timestamp < t) :
    s.getitem t = (.ok d, { s with timestamp := t }) :=
  Stream.getitem_out_of_range hdc hkeys hts ht

/-- The spec scenario for C8: a stream with default 0 and cursor 2 (no
explicit values beyond construction) read at timestamp 5 ends with cursor 5
and the read returns 0. -/
theorem claim_C8_witness :
    (Stream.fromList intGroup [0, 0]).getitem 5 =
      (.ok 0, { Stream.fromList intGroup [0, 0] with timestamp := 5 }) :=
  claim_C8_read_past_cursor 5 (by rfl) (by decide) (by decide) (by decide)

/-- C7: stream equality is unconditionally true between two streams whose
identity flags are still set (i.e. that never received a value differing
from their default), regardless of cursors; otherwise it holds exactly when
the cursors agree and the explicit-value mappings are exactly equal. -/
theorem claim_C7_stream_equality {T : Type} [DecidableEq T] (a b : Stream T) :
    (a.isIdentityStream = true → b.isIdentityStream = true → a.beq b = true) ∧
    (¬(a.isIdentityStream = true ∧ b.isIdentityStream = true) →
      (a.beq b = true ↔ a.timestamp = b.timestamp ∧ a.inner = b.inner)) := by
  unfold Stream.beq Stream.isIdentityStream
  constructor
  · intro ha hb
    rw [ha, hb]
    simp
  · intro hnot
    have : ¬(a.identity && b.identity) = true := by
      intro hcontra
      exact hnot (by constructor <;> revert hcontra <;> cases a.identity <;>
        cases b.identity <;> simp)
    rw [if_neg this]
    by_cases hts : a.timestamp = b.timestamp
    · simp [hts]
    · simp [hts]

set_option maxRecDepth 4000 in
/-- The spec scenario for C7: a fresh stream (cursor 0) and a fresh stream
auto-extended to cursor 100 are both still identity streams and compare
equal; and for two non-identity streams equality reduces to cursor and
mapping equality. -/
theorem claim_C7_witness :
    (Stream.new intGroup).timestamp = 0 ∧
    ((Stream.new intGroup).getitem 100).2.timestamp = 100 ∧
    Stream.beq (Stream.new intGroup) ((Stream.new intGroup).getitem 100).2 = true ∧
    (Stream.beq (Stream.fromList intGroup [1]) (Stream.fromList intGroup [2]) = true ↔
      (Stream.fromList intGroup [1]).timestamp = (Stream.fromList intGroup [2]).timestamp ∧
      (Stream.fromList intGroup [1]).inner = (Stream.fromList intGroup [2]).inner) := by
  refine ⟨rfl, by decide, ?_, ?_⟩
  · exact (claim_C7_stream_equality _ _).1 (by rfl) (by decide)
  · exact (claim_C7_stream_equality _ _).2 (by decide)

/-- C1 counterexample: integrating the stream that sent 3 and draining to
fixpoint gives latest value 3, but after the capture helper runs, the
output's default is still 0 and a read past the cursor still returns 0 —
`set_default` did not make 3 the prevailing default. -/
theorem claim_C1_counterexample :
    (drain integrateStep 2 (integrateInit (Stream.fromList intGroup [3]))).map
      (fun st => ((st.out.latest).1)) = .ok (.ok 3) ∧
    (stepUntilFixpointSetNewDefaultThenReturn 2
        (integrateInit (Stream.fromList intGroup [3]))).map
      (fun s => (s.default, (s.getitem 5).1)) = .ok (0, .ok 0) := by
  constructor <;> rfl

/-- C1 amended: `set_default` is an unimplemented placeholder with no effect
on any stream, and the fixpoint-then-capture helper therefore returns the
drained operator's output stream entirely unchanged (in particular with its
default still the construction-time one), the captured latest value being
discarded. -/
theorem claim_C1_amended {T : Type} [DecidableEq T] (s : Stream T) (v : T)
    (fuel : Nat) (st : IntegrateState T) (o : Stream T)
    (h : stepUntilFixpointSetNewDefaultThenReturn fuel st = .ok o) :
    s.setDefault v = s ∧
    ∃ st', drain integrateStep fuel st = .ok st' ∧ o = st'.out := by
  refine ⟨rfl, ?_⟩
  unfold stepUntilFixpointSetNewDefaultThenReturn at h
  cases hd : drain integrateStep fuel st with
  | error e => simp [hd] at h
  | ok st' =>
      simp only [hd] at h
      refine ⟨st', rfl, ?_⟩
      have hsnd : (st'.out.latest).2 = st'.out := Stream.latest_snd st'.out
      cases hl : st'.out.latest with
      | mk r out' =>
          rw [hl] at hsnd
          simp only at hsnd
          cases r with
          | error e => simp [hl] at h
          | ok lv =>
              simp only [hl, Stream.setDefault] at h
              have ho : out' = o := by
                injection h
              rw [← ho, hsnd]

theorem claim_C1_witness :
    Stream.setDefault (Stream.fromList intGroup [3]) 7 = Stream.fromList intGroup [3] ∧
    ∃ st', drain integrateStep 2 (integrateInit (Stream.fromList intGroup [3])) = .ok st' ∧
      Stream.fromList intGroup [3] = st'.out :=
  claim_C1_amended (Stream.fromList intGroup [3]) 7 2
    (integrateInit (Stream.fromList intGroup [3])) (Stream.fromList intGroup [3]) (by rfl)

/-- C2 counterexample: a freshly bound `Lift1` over an input that already
holds one element (input cursor 1, output cursor 0, frontier 0). The
maximum and minimum over the claim's set — the input-line frontier and the
output cursor — coincide (both are 0), so the claim predicts a no-op
returning true; but `step()` performs work: it returns false, appends one
element to the output and bumps the frontier to 1, because the code's
join/meet also range over the input cursor (here 1). -/
theorem claim_C2_counterexample :
    (max (Stream.new intGroup).timestamp (0 : Int) =
      min (Stream.new intGroup).timestamp (0 : Int)) ∧
    (lift1Step (fun x : Int => x)
      { input := Stream.fromList intGroup [3], output := Stream.new intGroup,
        frontier := 0 }).map
      (fun p => (p.2, p.1.output.timestamp, p.1.frontier)) = .ok (false, 1, 1) := by
  constructor <;> rfl

/-- C2 amended: `Lift1.step`/`Lift2.step` return true and do no work exactly
when the maximum and minimum over the set consisting of each input stream's
cursor, each input-line frontier, and the output cursor coincide; otherwise
they advance by exactly one timestamp unit — reading each input at its
frontier+1, applying the lifted function once, appending the single result
to the output, incrementing each frontier by one — and return false. -/
theorem claim_C2_amended {T R S : Type} [DecidableEq T] [DecidableEq R] [DecidableEq S]
    (f1 : T → R) (f2 : T → R → S) (st1 : Lift1State T R) (st2 : Lift2State T R S) :
    ((max st1.input.timestamp (max st1.output.timestamp st1.frontier) =
        min st1.input.timestamp (min st1.output.timestamp st1.frontier) →
      lift1Step f1 st1 = .ok (st1, true)) ∧
     (max st1.input.timestamp (max st1.output.timestamp st1.frontier) ≠
        min st1.input.timestamp (min st1.output.timestamp st1.frontier) →
      ∀ v input', st1.input.getitem (st1.frontier + 1) = (.ok v, input') →
        lift1Step f1 st1 =
          .ok ({ input := input'
                 output := st1.output.send (f1 v)
                 frontier := st1.frontier + 1 }, false))) ∧
    ((max st2.a.timestamp (max st2.b.timestamp (max st2.out.timestamp
        (max st2.frontierA st2.frontierB))) =
      min st2.a.timestamp (min st2.b.timestamp (min st2.out.timestamp
        (min st2.frontierA st2.frontierB))) →
      lift2Step f2 st2 = .ok (st2, true)) ∧
     (max st2.a.timestamp (max st2.b.timestamp (max st2.out.timestamp
        (max st2.frontierA st2.frontierB))) ≠
      min st2.a.timestamp (min st2.b.timestamp (min st2.out.timestamp
        (min st2.frontierA st2.frontierB))) →
      ∀ av a' bv b', st2.a.getitem (st2.frontierA + 1) = (.ok av, a') →
        st2.b.getitem (st2.frontierB + 1) = (.ok bv, b') →
        lift2Step f2 st2 =
          .ok ({ a := a'
                 b := b'
                 out := st2.out.send (f2 av bv)
                 frontierA := st2.frontierA + 1
                 frontierB := st2.frontierB + 1 }, false))) := by
  refine ⟨⟨?_, ?_⟩, ⟨?_, ?_⟩⟩
  · intro hjm
    unfold lift1Step
    rw [if_pos hjm]
  · intro hjm v input' hread
    unfold lift1Step
    rw [if_neg hjm]
    simp only [hread]
  · intro hjm
    unfold lift2Step
    rw [if_pos hjm]
  · intro hjm av a' bv b' hreada hreadb
    unfold lift2Step
    rw [if_neg hjm]
    simp only [hreada, hreadb]

theorem claim_C2_witness :
    lift1Step (fun x : Int => x)
      { input := Stream.fromList intGroup [3], output := Stream.new intGroup,
        frontier := 0 } =
      .ok ({ input := Stream.fromList intGroup [3],
             output := (Stream.new intGroup).send 3, frontier := 1 }, false) ∧
    lift2Step (fun x y : Int => x + y)
      { a := Stream.new intGroup, b := Stream.new intGroup,
        out := Stream.new intGroup, frontierA := 0, frontierB := 0 } =
      .ok ({ a := Stream.new intGroup, b := Stream.new intGroup,
             out := Stream.new intGroup, frontierA := 0, frontierB := 0 }, true) := by
  constructor
  · exact (claim_C2_amended (fun x : Int => x) (fun x y : Int => x + y)
      { input := Stream.fromList intGroup [3], output := Stream.new intGroup,
        frontier := 0 }
      { a := Stream.new intGroup, b := Stream.new intGroup,
        out := Stream.new intGroup, frontierA := 0, frontierB := 0 }).1.2
      (by decide) 3 (Stream.fromList intGroup [3]) (by rfl)
  · exact (claim_C2_amended (fun x : Int => x) (fun x y : Int => x + y)
      { input := Stream.fromList intGroup [3], output := Stream.new intGroup,
        frontier := 0 }
      { a := Stream.new intGroup, b := Stream.new intGroup,
        out := Stream.new intGroup, frontierA := 0, frontierB := 0 }).2.1
      (by decide)

end DBSP
